import Mathlib

/-!
Verification development for the Tapeworm image-sequence core
(`src/tapeworm/utils.py`, `src/tapeworm/image_sequence.py`,
`src/tapeworm/input_output.py`).

Python strings are embedded as `List Char`.  Filesystem reads are passed in
explicitly (directory listings as lists, existence checks as boolean
oracles), matching the values the Python code obtains from `os`.
-/

namespace Tapeworm

abbrev Str := List Char

/-- Conversion from a Lean string literal to the `List Char` embedding. -/
def str (s : String) : Str := s.data

/-! ## Decimal digits: models of Python `str(n)` and `int(s)` -/

/-- The character for a decimal digit value (0-9). -/
def digitChar (d : Nat) : Char := Char.ofNat (48 + d)

/-- The numeric value of a decimal digit character. -/
def digitVal (c : Char) : Nat := c.toNat - 48

/-- Decimal digits of `n`, with explicit recursion fuel (`n / 10` shrinks,
    so `n + 1` steps always suffice). -/
def natToDigitsAux : Nat → Nat → Str
  | 0, _ => []
  | fuel + 1, n =>
    if n < 10 then [digitChar n]
    else natToDigitsAux fuel (n / 10) ++ [digitChar (n % 10)]

/-- Decimal representation of a natural number, as Python `str(n)` renders it. -/
def natToDigits (n : Nat) : Str := natToDigitsAux (n + 1) n

theorem natToDigitsAux_fuel :
    ∀ fuel n, n < fuel → ∀ fuel', n < fuel' → natToDigitsAux fuel n = natToDigitsAux fuel' n := by
  intro fuel
  induction fuel with
  | zero => intro n h; omega
  | succ f ih =>
    intro n hn fuel' hn'
    rcases fuel' with _ | f'
    · omega
    · show (if n < 10 then _ else _) = (if n < 10 then _ else _)
      split
      · rfl
      · rename_i h10
        have hdiv : n / 10 < n := Nat.div_lt_self (by omega) (by omega)
        rw [ih (n / 10) (by omega) f' (by omega)]

def natOfDigitsAux (acc : Nat) : Str → Nat
  | [] => acc
  | c :: r => natOfDigitsAux (10 * acc + digitVal c) r

/-- Value of a string of decimal digit characters. -/
def natOfDigits (s : Str) : Nat := natOfDigitsAux 0 s

/-- Model of Python `str(n)` for integers (sign-aware). -/
def intToPyStr (n : Int) : Str :=
  if n < 0 then '-' :: natToDigits (-n).toNat else natToDigits n.toNat

/-- Python `str.isdigit()`: nonempty and all decimal digits. -/
def pyIsDigit (s : Str) : Bool := !s.isEmpty && s.all Char.isDigit

/-- The whitespace characters stripped by Python `int(s)`. -/
def pyIsSpace (c : Char) : Bool :=
  c = ' ' || c = '\t' || c = '\n' || c = '\r' || c = '\x0b' || c = '\x0c'

/-- Strip leading and trailing whitespace (model of Python `str.strip()`). -/
def pyStrip (s : Str) : Str :=
  ((s.dropWhile pyIsSpace).reverse.dropWhile pyIsSpace).reverse

def natOfDigitsChecked (s : Str) : Option Nat :=
  if s.isEmpty then none
  else if s.all Char.isDigit then some (natOfDigits s) else none

def pyIntOfStripped (t : Str) : Option Int :=
  if t.isEmpty then none
  else if t.headD ' ' = '-' then (natOfDigitsChecked (t.drop 1)).map (fun n => -(n : Int))
  else if t.headD ' ' = '+' then (natOfDigitsChecked (t.drop 1)).map (fun n => (n : Int))
  else (natOfDigitsChecked t).map (fun n => (n : Int))

/-- Model of Python 2 `int(s)` on strings: optional surrounding whitespace,
    optional sign, then at least one decimal digit; `none` models the
    `ValueError` raised otherwise. -/
def pyIntOfString (s : Str) : Option Int := pyIntOfStripped (pyStrip s)

/-! ## Basic facts about digits -/

theorem digitChar_isDigit {d : Nat} (h : d < 10) : (digitChar d).isDigit = true := by
  interval_cases d <;> decide

theorem digitVal_digitChar {d : Nat} (h : d < 10) : digitVal (digitChar d) = d := by
  interval_cases d <;> decide

theorem natToDigits_ne_nil (n : Nat) : natToDigits n ≠ [] := by
  show (if n < 10 then _ else _) ≠ []
  split <;> simp

theorem natToDigitsAux_all_digit :
    ∀ fuel n, n < fuel → ∀ c ∈ natToDigitsAux fuel n, c.isDigit = true := by
  intro fuel
  induction fuel with
  | zero => intro n h; omega
  | succ f ih =>
    intro n hn c hc
    rw [show natToDigitsAux (f + 1) n =
        (if n < 10 then [digitChar n] else natToDigitsAux f (n / 10) ++ [digitChar (n % 10)])
      from rfl] at hc
    split at hc
    · simp only [List.mem_singleton] at hc
      subst hc
      exact digitChar_isDigit (by omega)
    · rename_i h10
      rcases List.mem_append.mp hc with h1 | h2
      · have hdiv : n / 10 < n := Nat.div_lt_self (by omega) (by omega)
        exact ih (n / 10) (by omega) c h1
      · simp only [List.mem_singleton] at h2
        subst h2
        exact digitChar_isDigit (Nat.mod_lt _ (by omega))

theorem natToDigits_all_digit (n : Nat) : ∀ c ∈ natToDigits n, c.isDigit = true :=
  natToDigitsAux_all_digit (n + 1) n (by omega)

@[simp] theorem natOfDigitsAux_nil (acc : Nat) : natOfDigitsAux acc [] = acc := rfl

@[simp] theorem natOfDigitsAux_cons (acc : Nat) (c : Char) (r : Str) :
    natOfDigitsAux acc (c :: r) = natOfDigitsAux (10 * acc + digitVal c) r := rfl

theorem natOfDigitsAux_append (a b : Str) (acc : Nat) :
    natOfDigitsAux acc (a ++ b) = natOfDigitsAux (natOfDigitsAux acc a) b := by
  induction a generalizing acc with
  | nil => rfl
  | cons c r ih => rw [List.cons_append, natOfDigitsAux_cons, natOfDigitsAux_cons, ih]

theorem natOfDigits_natToDigitsAux :
    ∀ fuel n, n < fuel → natOfDigits (natToDigitsAux fuel n) = n := by
  intro fuel
  induction fuel with
  | zero => intro n h; omega
  | succ f ih =>
    intro n hn
    rw [show natToDigitsAux (f + 1) n =
        (if n < 10 then [digitChar n] else natToDigitsAux f (n / 10) ++ [digitChar (n % 10)])
      from rfl]
    split
    · rename_i h
      simp only [natOfDigits, natOfDigitsAux_cons, natOfDigitsAux_nil]
      rw [digitVal_digitChar h]
      omega
    · rename_i h
      have hlt : n / 10 < n := Nat.div_lt_self (by omega) (by omega)
      have := ih (n / 10) (by omega)
      simp only [natOfDigits] at this ⊢
      rw [natOfDigitsAux_append, this]
      simp only [natOfDigitsAux_cons, natOfDigitsAux_nil]
      rw [digitVal_digitChar (Nat.mod_lt _ (by omega))]
      omega

/-- Round trip: parsing the decimal rendering of `n` gives back `n`. -/
theorem natOfDigits_natToDigits (n : Nat) : natOfDigits (natToDigits n) = n :=
  natOfDigits_natToDigitsAux (n + 1) n (by omega)

theorem intToPyStr_ofNat (n : Nat) : intToPyStr (n : Int) = natToDigits n := by
  simp [intToPyStr]

/-- `natOfDigits` of the string `"1" ++ k * "0"` is `10 ^ k`. -/
theorem natOfDigits_one_zeros (k : Nat) :
    natOfDigits ('1' :: List.replicate k '0') = 10 ^ k := by
  have aux : ∀ k acc, natOfDigitsAux acc (List.replicate k '0') = acc * 10 ^ k := by
    intro k
    induction k with
    | zero => intro acc; simp [natOfDigitsAux_nil]
    | succ m ih =>
      intro acc
      simp only [List.replicate_succ, natOfDigitsAux_cons, ih]
      have : digitVal '0' = 0 := by decide
      rw [this]
      ring
  simp only [natOfDigits, natOfDigitsAux_cons]
  rw [aux]
  have : digitVal '1' = 1 := by decide
  rw [this]
  ring

/-! ## Model of `os.path.splitext`

Splits a filename at its last dot, unless every character before that dot
is itself a dot (the Unix dot-file rule of `genericpath._splitext`). -/

def pyRFindAux (c : Char) : Str → Nat → Option Nat
  | [], _ => none
  | x :: r, i =>
    match pyRFindAux c r (i + 1) with
    | some j => some j
    | none => if x = c then some i else none

/-- Index of the last occurrence of `c` in `s` (Python `str.rfind`). -/
def pyRFind (s : Str) (c : Char) : Option Nat := pyRFindAux c s 0

def splitExt (f : Str) : Str × Str :=
  match pyRFind f '.' with
  | none => (f, [])
  | some p => if (f.take p).any (fun c => c ≠ '.') then (f.take p, f.drop p) else (f, [])

/-! ## `utils.split_at_digit` -/

/-- The loop of `split_at_digit`: walk the root, extending the current
    substring while the digit/non-digit class is unchanged, else starting a
    new substring. -/
def splitLoop : Str → Bool → Str → List Str
  | [], _, cur => [cur]
  | c :: cs, prev, cur =>
    if (!c.isDigit && !prev) || (c.isDigit && prev) then
      splitLoop cs c.isDigit (cur ++ [c])
    else
      cur :: splitLoop cs c.isDigit [c]

/-- The list of maximal same-class substrings of a root
    (`split_root` in `split_at_digit`; the source indexes `root[0]` and so
    assumes a nonempty root). -/
def splitRootList (root : Str) : List Str :=
  match root with
  | [] => []
  | c :: rest => splitLoop rest c.isDigit [c]

/-- The ordered dictionary returned by `split_at_digit` (with
    `join_mid=False`; a single-item midsection is kept as a one-element
    list, which `_get_body` flattens identically). -/
structure SplitRoot where
  head : Str
  mid : Option (List Str)
  tail : Option Str
deriving DecidableEq

def split_at_digit (root : Str) : SplitRoot :=
  let sr := splitRootList root
  { head := sr.headD []
    mid := if sr.length < 3 then none else some ((sr.drop 1).dropLast)
    tail := if sr.length < 2 then none else sr.getLast? |>.getD [] }

/-! ## `utils.levenshtein_distance` (row-by-row dynamic programming) -/

def levRowAux (tc : Char) : Str → List Nat → Nat → List Nat
  | [], _, _ => []
  | sc :: srest, diag :: up :: prest, left =>
    let cost := if sc = tc then 0 else 1
    let v := min (left + 1) (min (up + 1) (diag + cost))
    v :: levRowAux tc srest (up :: prest) v
  | _ :: _, _, _ => []

def levRow (tc : Char) (s : Str) (prev : List Nat) : List Nat :=
  let first := prev.headD 0 + 1
  first :: levRowAux tc s prev first

def levenshtein_distance (s t : Str) : Nat :=
  (t.foldl (fun row tc => levRow tc s row) (List.range (s.length + 1))).getLastD 0

/-! ## `utils.parse_digit_format_specifier` -/

/-- `parse_digit_format_specifier`: `int(num_string)` must succeed, then
    the specifier is `%0<len>d` when the string length exceeds 1, else `%d`.
    The error models the re-raised `ValueError`. -/
def parse_digit_format_specifier (num : Str) : Except String Str :=
  match pyIntOfString num with
  | some _ =>
    let padding := num.length
    if padding > 1 then .ok ('%' :: '0' :: (natToDigits padding ++ ['d']))
    else .ok ['%', 'd']
  | none => .error "num_string must represent an optionally zero-padded integer number"

/-! ## `utils.has_digit_format_specifier` and `to_re_pattern`

`has_digit_format_specifier` is `re.search(r"(%\d*d)", s)`: some position
starts with a percent sign, then zero or more digits, then the letter d. -/

def dfsAfterPercent : Str → Bool
  | [] => false
  | c :: r => if c = 'd' then true else if c.isDigit then dfsAfterPercent r else false

def dfsStartsAt : Str → Bool
  | [] => false
  | c :: r => if c = '%' then dfsAfterPercent r else false

def has_digit_format_specifier : Str → Bool
  | [] => false
  | c :: r => dfsStartsAt (c :: r) || has_digit_format_specifier r

/-- `to_re_pattern`: turns a digit format specifier into a regex fragment.
    `spec[-2]` is read with `List.getD`; the slice `spec[-offset+1:-1]`
    (with `offset = len-1`) is `spec[2:len-1]`.  A failing `int` on the
    slice models the uncaught `ValueError`. -/
def to_re_pattern (spec : Str) (strict : Bool) : Except String Str :=
  if has_digit_format_specifier spec = false then
    .error "spec is not a valid digit format specifier"
  else if spec ≠ ['%', 'd'] then
    let size0 : Int :=
      if (spec.getD (spec.length - 2) ' ').isDigit then
        (digitVal (spec.getD (spec.length - 2) ' ') : Int)
      else 1
    if spec.length > 4 then
      match pyIntOfString ((spec.drop 2).take (spec.length - 3)) with
      | none => .error "int raised ValueError"
      | some size =>
        if strict then .ok (str "\\d\x7b" ++ intToPyStr size ++ str "\x7d")
        else .ok (str "\\d\x7b1," ++ intToPyStr size ++ str "\x7d")
    else
      if strict then .ok (str "\\d\x7b" ++ intToPyStr size0 ++ str "\x7d")
      else .ok (str "\\d\x7b1," ++ intToPyStr size0 ++ str "\x7d")
  else .ok (str "\\d+")

/-! ## Python `%`-formatting, `str.replace`, `str.zfill`, `in`, `str.find` -/

/-- Zero-padding of Python `str.zfill` (sign-aware). -/
def pyZfill (s : Str) (w : Nat) : Str :=
  if w ≤ s.length then s
  else if s.headD ' ' = '-' then '-' :: (List.replicate (w - s.length) '0' ++ s.drop 1)
  else List.replicate (w - s.length) '0' ++ s

/-- Render one `%` conversion: `ds` is the run of digits between `%` and
    `d` (empty for plain `%d`; a leading 0 selects zero padding, otherwise
    Python pads with spaces). -/
def pyFmtRender (ds : Str) (n : Int) : Str :=
  let width := natOfDigits ds
  let body := intToPyStr n
  if width ≤ body.length then body
  else if ds.headD ' ' = '0' then pyZfill body width
  else List.replicate (width - body.length) ' ' ++ body

/-- Recognise a `%<digits>d` conversion right after a percent sign,
    returning the digit run and the remainder. -/
def pySpecAt (rest : Str) : Option (Str × Str) :=
  if (rest.drop (rest.takeWhile Char.isDigit).length).headD ' ' = 'd' then
    some (rest.takeWhile Char.isDigit,
      (rest.drop (rest.takeWhile Char.isDigit).length).drop 1)
  else none

theorem pySpecAt_some_length {rest ds tail : Str} (h : pySpecAt rest = some (ds, tail)) :
    tail.length < rest.length := by
  unfold pySpecAt at h
  split at h
  · rename_i hd
    injection h with h'
    have h2 : tail = (rest.drop (rest.takeWhile Char.isDigit).length).drop 1 :=
      (congrArg Prod.snd h').symm
    have hne : rest.drop (rest.takeWhile Char.isDigit).length ≠ [] := by
      intro he
      rw [he] at hd
      exact absurd hd (by decide)
    have hpos := List.length_pos.mpr hne
    have hd1 := List.length_drop (rest.takeWhile Char.isDigit).length rest
    have hd2 := List.length_drop 1 (rest.drop (rest.takeWhile Char.isDigit).length)
    rw [h2]
    omega
  · exact absurd h (by simp)

/-- Model of Python `fmt % n` for the `%d`-style format strings this
    program builds (each conversion in the string is rendered with `n`;
    call sites pass strings holding exactly one conversion).  The fuel
    argument only bounds the recursion; at least one character is consumed
    per step, so `length + 1` always suffices. -/
def pyFormatAux : Nat → Str → Int → Str
  | 0, _, _ => []
  | _, [], _ => []
  | fuel + 1, c :: rest, n =>
    if c = '%' then
      match pySpecAt rest with
      | some (ds, tail) => pyFmtRender ds n ++ pyFormatAux fuel tail n
      | none => '%' :: pyFormatAux fuel rest n
    else c :: pyFormatAux fuel rest n

def pyFormat (s : Str) (n : Int) : Str := pyFormatAux (s.length + 1) s n

/-- Python `str.replace` (all non-overlapping occurrences, left to right),
    with fuel bounding the recursion as above. -/
def pyReplaceAux : Nat → Str → Str → Str → Str
  | 0, _, _, _ => []
  | _, [], _, _ => []
  | fuel + 1, c :: rest, old, new =>
    if old ≠ [] ∧ old.isPrefixOf (c :: rest) then
      new ++ pyReplaceAux fuel ((c :: rest).drop old.length) old new
    else
      c :: pyReplaceAux fuel rest old new

def pyReplace (s old new : Str) : Str := pyReplaceAux (s.length + 1) s old new

/-- Python `sub in s` for strings. -/
def pyContains : Str → Str → Bool
  | [], sub => sub.isEmpty
  | c :: r, sub => sub.isPrefixOf (c :: r) || pyContains r sub

def pyFindAux (sub : Str) : Str → Nat → Int
  | [], _ => -1
  | c :: r, i => if sub.isPrefixOf (c :: r) then (i : Int) else pyFindAux sub r (i + 1)

/-- Python `s.find(sub)` (nonempty `sub`): index of first occurrence, else -1. -/
def pyFind (s sub : Str) : Int := pyFindAux sub s 0

/-- Python slice endpoint: nonnegative indices clamp to the length,
    negative indices count from the end (clamped at 0). -/
def pySliceIdx (len : Nat) (k : Int) : Nat :=
  if 0 ≤ k then min k.toNat len else len - (-k).toNat

def pyTake (s : Str) (k : Int) : Str := s.take (pySliceIdx s.length k)

def pyDropFrom (s : Str) (k : Int) : Str := s.drop (pySliceIdx s.length k)

/-! ## `utils.extract_digit_format_specifiers`

`re.findall(r"(%\d*d)", s)` over the filename: at a percent sign, the run
of digits followed by the letter d (the first non-digit reachable) is the
unique possible match, so a scan with `pySpecAt` is exact. -/

def dfsMatchAt (s : Str) : Option (Str × Str) :=
  if s.headD ' ' = '%' then
    match pySpecAt (s.drop 1) with
    | some (ds, tail) => some ('%' :: (ds ++ ['d']), tail)
    | none => none
  else none

theorem dfsMatchAt_some_length {s spec rest : Str} (h : dfsMatchAt s = some (spec, rest)) :
    rest.length < s.length := by
  unfold dfsMatchAt at h
  split at h
  · rename_i hd
    have hne : s ≠ [] := by
      intro he
      rw [he] at hd
      exact absurd hd (by decide)
    have hpos := List.length_pos.mpr hne
    rcases hp : pySpecAt (s.drop 1) with _ | ⟨ds, tail⟩ <;> rw [hp] at h
    · exact absurd h (by simp)
    · injection h with h'
      have h2 : rest = tail := (congrArg Prod.snd h').symm
      have := pySpecAt_some_length hp
      have hd1 := List.length_drop 1 s
      rw [h2]
      omega
  · exact absurd h (by simp)

def findAllDfsAux : Nat → Str → List Str
  | 0, _ => []
  | _, [] => []
  | fuel + 1, c :: r =>
    match dfsMatchAt (c :: r) with
    | some (spec, rest) => spec :: findAllDfsAux fuel rest
    | none => findAllDfsAux fuel r

def findAllDfs (s : Str) : List Str := findAllDfsAux (s.length + 1) s

/-- `extract_digit_format_specifiers`: the specifiers found in the string,
    each with `filename.find(spec)`; the empty list models `(None, None)`. -/
def extract_digit_format_specifiers (filename : Str) : List (Int × Str) :=
  if has_digit_format_specifier filename = false then []
  else (findAllDfs filename).map (fun spec => (pyFind filename spec, spec))

/-! ## `ImageSequence._predict_sequence` -/

/-- The inner loop of `_predict_sequence` for one body component `seg`
    starting at root index `si`: accumulate the Levenshtein distance
    between `froot[si:si+len(seg)]` and `seg` over the directory files,
    skipping the sample itself, and (unless `strict`) stopping after
    `maxCount` iterated files.  `isFileExt f` is the `is_file(fpath, ext)`
    filesystem check. -/
def segScoreLoop (strict : Bool) (maxCount : Nat) (isFileExt : Str → Bool) (filename : Str)
    (si : Nat) (seg : Str) : List Str → Nat → Nat → Nat
  | [], total, _ => total
  | f :: fs, total, count =>
    if !strict && decide (maxCount ≤ count) then total
    else
      let total' :=
        if isFileExt f && decide (f ≠ filename) then
          total + levenshtein_distance (((splitExt f).1.drop si).take seg.length) seg
        else total
      segScoreLoop strict maxCount isFileExt filename si seg fs total' (count + 1)

/-- The outer loop of `_predict_sequence`: index `i` and string start
    index `si` walk the body components; a component is recorded when its
    accumulated distance is positive and it is all digits. -/
def predictAux (strict : Bool) (maxCount : Nat) (isFileExt : Str → Bool) (filename : Str)
    (files : List Str) : List Str → Nat → Nat → List Nat
  | [], _, _ => []
  | seg :: rest, i, si =>
    let total := segScoreLoop strict maxCount isFileExt filename si seg files 0 0
    let tailIdx := predictAux strict maxCount isFileExt filename files rest (i + 1) (si + seg.length)
    if decide (0 < total) && pyIsDigit seg then i :: tailIdx else tailIdx

/-- `max_count` of `_predict_sequence`:
    `int("1" + "0" * (len(str(fcount)) - 1))`, replaced by `fcount` itself
    when not above 10. -/
def maxCountFor (fcount : Nat) : Nat :=
  let raw := natOfDigits ('1' :: List.replicate ((natToDigits fcount).length - 1) '0')
  if 10 < raw then raw else fcount

/-- `_predict_sequence`: the predicted body component indices, or the
    `RuntimeError` when none (or more than the body length) are found. -/
def predict_sequence (body : List Str) (strict : Bool) (files : List Str)
    (isFileExt : Str → Bool) (filename : Str) : Except String (List Nat) :=
  let mc := maxCountFor files.length
  let predicted := predictAux strict mc isFileExt filename files body 0 0
  if predicted.length < 1 || decide (body.length < predicted.length) then
    .error "Unable to predict number sequence"
  else .ok predicted

/-! ## `ImageSequence._get_body` and `_parse_filename_pattern` -/

/-- `_get_body`: head, flattened midsection, and tail as one list. -/
def get_body (s : SplitRoot) : List Str :=
  [s.head] ++ (match s.mid with | some m => m | none => []) ++
    (match s.tail with | some t => [t] | none => [])

/-- The replacement loop of `_parse_filename_pattern` over the predicted
    indices: each predicted component is replaced in the parsed root by its
    digit format specifier, with `ri` adjusted by the accumulated length
    offset; returns the parsed root and the last `sequence` string. -/
def parseLoop (body : List Str) : List Nat → Str → Option Str → Int → Except String (Str × Option Str)
  | [], parsed, seqv, _ => .ok (parsed, seqv)
  | i :: rest, parsed, _, offset =>
    let sequence := body.getD i []
    match parse_digit_format_specifier sequence with
    | .error e => .error e
    | .ok parsedSeq =>
      let ri : Int := ((body.take i).flatten.length : Int) - offset
      let parsed' := pyTake parsed ri ++ parsedSeq ++
        pyDropFrom parsed (ri + (sequence.length : Int))
      parseLoop body rest parsed' (some sequence)
        (offset + ((sequence.length : Int) - (parsedSeq.length : Int)))

/-- `_parse_filename_pattern`: decompose the root, predict the sequence
    components (with `_predict_sequence`'s default non-strict sampling),
    substitute digit format specifiers, reject multiple sequences in
    strict mode, and return the pattern with the sample's number. -/
def parse_filename_pattern (root ext : Str) (strict : Bool) (files : List Str)
    (isFileExt : Str → Bool) (filename : Str) : Except String (Str × Int) :=
  let body := get_body (split_at_digit root)
  match predict_sequence body false files isFileExt filename with
  | .error e => .error e
  | .ok bsi =>
    match parseLoop body bsi root none 0 with
    | .error e => .error e
    | .ok (parsedRoot, seqv) =>
      if decide (1 < bsi.length) && strict then
        .error "Image sequence contains more than a single number sequence"
      else
        match seqv with
        | none => .error "int(None) raised TypeError"
        | some seq =>
          match pyIntOfString seq with
          | none => .error "int raised ValueError"
          | some n => .ok (parsedRoot ++ ext, n)

/-! ## `ImageSequence.get_start_number`, `detect_gaps`, `__init__` -/

def starts_at_zero (start_num : Int) : Bool := start_num == 0

/-- The loop of `get_start_number`: `other_num` is overwritten by each
    existing candidate while scanning the given index list. -/
def scanDown (p : Nat → Bool) : List Nat → Int → Int
  | [], other => other
  | i :: rest, other => scanDown p rest (if p i then (i : Int) else other)

/-- `get_start_number`: scan `xrange(start_num - 1, -1, -1)` for existing
    files (`p i` is `is_file(basedir / (dfs_filename % i))`), keeping the
    last (= smallest) hit, defaulting to `start_num`. -/
def get_start_number (p : Nat → Bool) (start_num : Int) : Int :=
  let other : Int :=
    if starts_at_zero start_num then -1
    else scanDown p ((List.range start_num.toNat).reverse) (-1)
  if other < 0 then start_num else other

/-- `detect_gaps`: for a real sequence, render the pattern for each `i` in
    `xrange(start_num, len(files))` and collect the names missing from the
    directory listing. -/
def detect_gaps (start_num : Int) (dfs_filename : Str) (files : List Str) : Option (List Str) :=
  if start_num < 0 then none
  else
    let idxs := List.range' start_num.toNat (files.length - start_num.toNat)
    let missing := (idxs.map (fun (i : Nat) => pyFormat dfs_filename (i : Int))).filter
      (fun fname => !files.contains fname)
    if 0 < missing.length then some missing else none

/-- The descriptor state set up by `ImageSequence.__init__`. -/
structure ImageSequenceDesc where
  dfs_filename : Str
  start_num : Int
  messages : List Str
deriving DecidableEq

/-- The diagnostic recorded for a single image (source text, without the
    surrounding quote characters). -/
def single_image_message (filename : Str) : Str :=
  str "Unable to find image sequence files, other than " ++ filename ++
    str " at the specified path."

/-- `ImageSequence.__init__` after the path checks: `files` is the
    directory listing restricted to the sample's extension, `isFileExt` and
    `isFileAny` are the `is_file` checks with and without the extension
    restriction. -/
def infer (filename : Str) (files : List Str) (isFileExt isFileAny : Str → Bool) :
    Except String ImageSequenceDesc :=
  let root := (splitExt filename).1
  let ext := (splitExt filename).2
  if files.length < 2 then
    .ok { dfs_filename := filename
          start_num := -1
          messages := [single_image_message filename] }
  else
    match parse_filename_pattern root ext true files isFileExt filename with
    | .error e => .error e
    | .ok (dfsF, seqNum) =>
      let startn := get_start_number (fun i => isFileAny (pyFormat dfsF (i : Int))) seqNum
      .ok { dfs_filename := dfsF, start_num := startn, messages := [] }

/-! ## `ImageSequence.get_regex_filename` and `get_sequence_files` -/

/-- `get_regex_filename`: wrap the specifier's regex fragment in a group,
    anchor the pattern, and undo escaped percent signs. -/
def get_regex_filename (dfs_filename : Str) (start_num : Int) : Except String Str :=
  let ex := extract_digit_format_specifiers dfs_filename
  if ex.isEmpty || start_num < 0 then .ok dfs_filename
  else
    match ex with
    | [(_, dfs)] =>
      match to_re_pattern dfs true with
      | .error e => .error e
      | .ok frag =>
        let group := '(' :: (frag ++ [')'])
        let reF := '^' :: (pyReplace dfs_filename dfs group ++ ['$'])
        let reF := if pyContains reF (str "%%") then pyReplace reF (str "%%") (str "%") else reF
        .ok reF
    | _ => .error "More than one digit format specifier found"

/-- The digit fragment of a pattern built by `get_regex_filename`. -/
inductive DFrag
  | plus : DFrag
  | exact : Nat → DFrag
  | upTo : Nat → DFrag
deriving DecidableEq

def parseFrag (l : Str) : Option DFrag :=
  if l.take 2 = ['\\', 'd'] then
    let rest := l.drop 2
    if rest = ['+'] then some .plus
    else if rest.headD ' ' = '\x7b' then
      let r := rest.drop 1
      if r.getLast? = some '\x7d' then
        let inner := r.dropLast
        if inner.take 2 = ['1', ','] then
          if pyIsDigit (inner.drop 2) then some (.upTo (natOfDigits (inner.drop 2))) else none
        else if pyIsDigit inner then some (.exact (natOfDigits inner)) else none
      else none
    else none
  else none

/-- Split a list at the first occurrence of `c` (which is dropped). -/
def splitAtChar (c : Char) : Str → Option (Str × Str)
  | [] => none
  | x :: r =>
    if x = c then some ([], r)
    else (splitAtChar c r).map (fun p => (x :: p.1, p.2))

/-- Parse an anchored single-group pattern `^A(\d...)B$` into its literal
    parts and digit fragment. -/
def parseSeqPattern (p : Str) : Option (Str × DFrag × Str) :=
  if p.headD ' ' = '^' then
    let rest := p.drop 1
    if rest.getLast? = some '$' then
      let core := rest.dropLast
      match splitAtChar '(' core with
      | none => none
      | some (pre, afterParen) =>
        match splitAtChar ')' afterParen with
        | none => none
        | some (fragStr, suf) => (parseFrag fragStr).map (fun fr => (pre, fr, suf))
    else none
  else none

def fragOK (fr : DFrag) (ds : Str) : Bool :=
  pyIsDigit ds &&
    (match fr with
     | .plus => true
     | .exact n => decide (ds.length = n)
     | .upTo n => decide (1 ≤ ds.length) && decide (ds.length ≤ n))

/-- Model of Python `re.match(pattern, f)` with capture of group 1, for
    the anchored single-group patterns produced by `get_regex_filename`
    (literal parts are matched character by character; with a literal
    suffix the group's extent is forced by the lengths). -/
def reMatchCapture (p f : Str) : Option Str :=
  match parseSeqPattern p with
  | none => none
  | some (pre, fr, suf) =>
    if pre.length + suf.length ≤ f.length then
      let m := f.length - pre.length - suf.length
      let ds := (f.drop pre.length).take m
      if decide (f.take pre.length = pre) && decide (f.drop (pre.length + m) = suf) &&
          fragOK fr ds then
        some ds
      else none
    else none

/-- Comparison of `(sequence number, filename)` pairs, as Python `sorted`
    orders tuples. -/
def strLTChars : Str → Str → Bool
  | [], [] => false
  | [], _ :: _ => true
  | _ :: _, [] => false
  | a :: xs, b :: ys => if a = b then strLTChars xs ys else decide (a.toNat < b.toNat)

def pyPairLE (a b : Int × Str) : Bool :=
  decide (a.1 < b.1) || (decide (a.1 = b.1) && (strLTChars a.2 b.2 || decide (a.2 = b.2)))

def pyInsertSorted (le : α → α → Bool) (a : α) : List α → List α
  | [] => [a]
  | x :: xs => if le a x then a :: x :: xs else x :: pyInsertSorted le a xs

/-- Model of Python `sorted` (order by `le`; only used through
    permutation facts here). -/
def pySort (le : α → α → Bool) : List α → List α
  | [] => []
  | x :: xs => pyInsertSorted le x (pySort le xs)

/-- The collection loop of `get_sequence_files` over the directory
    listing: keep regular files matching the pattern, recording
    `int(match.group(1))` when sorting is requested. -/
def gsfLoop (reF : Str) (isfileB : Str → Bool) (sortFiles : Bool) : List Str → List Str × List Int
  | [] => ([], [])
  | f :: rest =>
    let acc := gsfLoop reF isfileB sortFiles rest
    if isfileB f = false then acc
    else
      match reMatchCapture reF f with
      | none => acc
      | some g =>
        (f :: acc.1, if sortFiles then ((pyIntOfString g).getD 0) :: acc.2 else acc.2)

/-- `get_sequence_files`: the matching directory entries, sorted by their
    captured sequence numbers when requested. -/
def get_sequence_files (reF : Str) (listdir : List Str) (isfileB : Str → Bool)
    (sortFiles : Bool) : List Str :=
  let acc := gsfLoop reF isfileB sortFiles listdir
  if sortFiles && decide (0 < acc.1.length) then
    (pySort pyPairLE (acc.2.zip acc.1)).map Prod.snd
  else acc.1

/-! ## `InputOutput.rename_sequence_files`

The filesystem is explicit state: the set of regular files and the set of
directories, both as absolute paths.  `os.path.join` is modelled for the
plain `dir / name` shape used here.  The collaborator results consumed by
the method (`get_sequence_files`, `get_dfs_filename`,
`extract_digit_format_specifiers`, `get_regex_filename` via `re.match`,
`utils.compare`, `utils.is_file` on the input path) are passed in as
values/oracles. -/

structure FS where
  files : List Str
  dirs : List Str
deriving DecidableEq

def pathJoin (a b : Str) : Str := a ++ '/' :: b

inductive IOErr
  | notSequence : IOErr
  | mkdirFailed : IOErr
  | renameFailed : Str → IOErr
deriving DecidableEq

/-- `InputOutput._rename_file`: move (same directory) or copy the single
    file to the destination, then verify it exists. -/
def rename_file_model (fs : FS) (inputPath outputDir outRoot ext : Str)
    (cmpDirs : Bool) : FS × Except IOErr Unit :=
  let outRoot := if pyContains outRoot (str "%%") then pyReplace outRoot (str "%%") (str "%")
    else outRoot
  let dest := pathJoin outputDir (outRoot ++ ext)
  let fs' : FS :=
    if cmpDirs then { fs with files := dest :: fs.files.erase inputPath }
    else { fs with files := dest :: fs.files }
  if fs'.files.contains dest then (fs', .ok ()) else (fs', .error (.renameFailed (str "move")))

/-- The staging loop of `rename_sequence_files`: for each sequence file
    that exists and matches the pattern, compute its renamed form and move
    (or copy) it into the staging directory, counting the staged files. -/
def stageLoop (inputDir tmpDir : Str) (reMatch : Str → Option Str) (imStartNonNeg : Bool)
    (outRoot : Str) (dfsIdx : Int) (dfsLen : Nat) (width : Nat) (cmpDirs : Bool) :
    List Str → FS → List Str → Int → FS × List Str × Int
  | [], fs, acc, count => (fs, acc, count)
  | f :: rest, fs, acc, count =>
    let source := pathJoin inputDir f
    if fs.files.contains source = false then
      stageLoop inputDir tmpDir reMatch imStartNonNeg outRoot dfsIdx dfsLen width cmpDirs
        rest fs acc count
    else
      match reMatch f with
      | none =>
        stageLoop inputDir tmpDir reMatch imStartNonNeg outRoot dfsIdx dfsLen width cmpDirs
          rest fs acc count
      | some g1 =>
        let root := (splitExt f).1
        let ext := (splitExt f).2
        let strippedRoot := if imStartNonNeg then pyReplace root g1 [] else []
        let outRoot' := if pyContains outRoot (str "%%") then
            pyReplace outRoot (str "%%") (str "%")
          else outRoot
        let numStr := pyZfill (intToPyStr count) width
        let root1 := pyReplace root g1 numStr
        let root2 :=
          if strippedRoot ≠ outRoot' then
            if dfsIdx < ((dfsLen / 2 : Nat) : Int) then numStr ++ outRoot'
            else outRoot' ++ numStr
          else root1
        let tmpPath := pathJoin tmpDir (root2 ++ ext)
        let fs' : FS :=
          if cmpDirs then { fs with files := tmpPath :: fs.files.erase source }
          else { fs with files := tmpPath :: fs.files }
        stageLoop inputDir tmpDir reMatch imStartNonNeg outRoot dfsIdx dfsLen width cmpDirs
          rest fs' (acc ++ [tmpPath]) (count + 1)

/-- The commit loop: move every staged file into the output directory. -/
def commitLoop (outputDir : Str) : List Str → FS → Nat → FS × Nat
  | [], fs, count => (fs, count)
  | fpath :: rest, fs, count =>
    let fname := (fpath.reverse.takeWhile (fun c => c ≠ '/')).reverse
    let dest := pathJoin outputDir fname
    commitLoop outputDir rest { fs with files := dest :: fs.files.erase fpath } (count + 1)

/-- `rename_sequence_files`: guard on the descriptor, create the staging
    directory, stage the renamed files, fail (removing the staging
    directory) when nothing was staged, else commit and clean up.
    `seqFiles`, `dfsFname`, `dfsIdx`, `reMatch` and `cmpDirs` carry the
    collaborator results; `tmpStamp` is the timestamp suffix. -/
def rename_sequence_files (fs0 : FS) (inputDir inputFname outputDir outRoot : Str)
    (imStart : Option Int) (seqFiles : List Str) (dfsFname : Str) (dfsIdx : Int)
    (reMatch : Str → Option Str) (cmpDirs : Bool) (tmpStamp : Str) (startNum : Int) :
    FS × Except IOErr Unit :=
  match imStart with
  | none => (fs0, .error .notSequence)
  | some st =>
    if st < 0 then
      rename_file_model fs0 (pathJoin inputDir inputFname) outputDir outRoot
        (splitExt inputFname).2 cmpDirs
    else
      let tmpDir := pathJoin inputDir (str "tmp" ++ tmpStamp)
      if fs0.dirs.contains tmpDir then (fs0, .error .mkdirFailed)
      else
        let fs1 : FS := { fs0 with dirs := tmpDir :: fs0.dirs }
        let width := (intToPyStr ((seqFiles.length : Int) + startNum)).length
        let out := stageLoop inputDir tmpDir reMatch (0 ≤ st) outRoot dfsIdx
          dfsFname.length width cmpDirs seqFiles fs1 [] startNum
        let fs2 := out.1
        let tmpPaths := out.2.1
        let count := out.2.2
        if count - startNum = 0 then
          let fs3 : FS := { fs2 with dirs := fs2.dirs.erase tmpDir }
          (fs3, .error (.renameFailed (str "Unable to move and rename any files")))
        else
          let comm := commitLoop outputDir tmpPaths fs2 0
          if comm.2 = 0 then (comm.1, .error (.renameFailed (str "Unable to move renamed files")))
          else ({ comm.1 with dirs := comm.1.dirs.erase tmpDir }, .ok ())

/-! # Supporting lemmas -/

theorem isDigit_not_space {c : Char} (h : c.isDigit = true) : pyIsSpace c = false := by
  have h1 : c ≠ ' ' := fun e => absurd (e ▸ h) (by decide)
  have h2 : c ≠ '\t' := fun e => absurd (e ▸ h) (by decide)
  have h3 : c ≠ '\n' := fun e => absurd (e ▸ h) (by decide)
  have h4 : c ≠ '\r' := fun e => absurd (e ▸ h) (by decide)
  have h5 : c ≠ '\x0b' := fun e => absurd (e ▸ h) (by decide)
  have h6 : c ≠ '\x0c' := fun e => absurd (e ▸ h) (by decide)
  simp [pyIsSpace, h1, h2, h3, h4, h5, h6]

theorem dropWhile_space_of_digits {l : Str} (h : ∀ c ∈ l, c.isDigit = true) :
    l.dropWhile pyIsSpace = l := by
  cases l with
  | nil => rfl
  | cons c r =>
    have := isDigit_not_space (h c (by simp))
    simp [List.dropWhile_cons, this]

theorem pyStrip_digits {s : Str} (h : ∀ c ∈ s, c.isDigit = true) : pyStrip s = s := by
  unfold pyStrip
  rw [dropWhile_space_of_digits h]
  rw [dropWhile_space_of_digits (by intro c hc; exact h c (List.mem_reverse.mp hc))]
  exact List.reverse_reverse s

@[simp] theorem isOk_ok (x : α) : (Except.ok x : Except ε α).isOk = true := rfl

@[simp] theorem isOk_error (e : ε) : (Except.error e : Except ε α).isOk = false := rfl

theorem pyIsDigit_parts {s : Str} (h : pyIsDigit s = true) :
    s ≠ [] ∧ ∀ c ∈ s, c.isDigit = true := by
  unfold pyIsDigit at h
  constructor
  · intro he
    subst he
    exact absurd h (by decide)
  · intro c hc
    have h2 : s.all Char.isDigit = true := by
      cases hb : s.all Char.isDigit
      · rw [hb] at h
        simp at h
      · rfl
    exact List.all_eq_true.mp h2 c hc

theorem natOfDigitsChecked_digits {s : Str} (h : pyIsDigit s = true) :
    natOfDigitsChecked s = some (natOfDigits s) := by
  rcases pyIsDigit_parts h with ⟨hne, hall⟩
  unfold natOfDigitsChecked
  rw [if_neg (by simp [hne]), if_pos (List.all_eq_true.mpr hall)]

/-- Python `int` accepts any nonempty all-digit string. -/
theorem pyIntOfString_digits {s : Str} (h : pyIsDigit s = true) :
    pyIntOfString s = some ((natOfDigits s : Nat) : Int) := by
  rcases pyIsDigit_parts h with ⟨hne, hall⟩
  unfold pyIntOfString
  rw [pyStrip_digits hall]
  rcases s with _ | ⟨c, r⟩
  · exact absurd rfl hne
  · have hc := hall c (by simp)
    have hcm : c ≠ '-' := fun e => absurd (e ▸ hc) (by decide)
    have hcp : c ≠ '+' := fun e => absurd (e ▸ hc) (by decide)
    unfold pyIntOfStripped
    rw [if_neg (by simp)]
    simp only [List.headD_cons]
    rw [if_neg hcm, if_neg hcp, natOfDigitsChecked_digits h]
    rfl

/-! # C5: `parse_digit_format_specifier` -/

/-- A definition following the claim's words: the parse fails exactly when
    the input is empty or contains a non-digit character. -/
def claimedParseFailure (s : Str) : Prop := s = [] ∨ ∃ c ∈ s, c.isDigit = false

instance (s : Str) : Decidable (claimedParseFailure s) := by
  unfold claimedParseFailure
  infer_instance

/-- C5 counterexample: the string "-5" contains a non-digit character, so
    the claim demands an `InvalidArgument` failure, but the code's
    `int("-5")` succeeds and a `%02d` specifier is returned. -/
theorem C5_counterexample :
    claimedParseFailure (str "-5") ∧
    parse_digit_format_specifier (str "-5") = .ok (str "%02d") := by
  constructor
  · exact Or.inr ⟨'-', by decide, by decide⟩
  · rfl

/-- C5 (amended): the parse returns width `len(s)` (as `%0<len>d`) when
    `len(s) > 1` and the unpadded `%d` when `len(s) = 1`, for every string
    accepted by Python `int` (in particular every nonempty all-digit
    string); it fails exactly when `int(s)` fails, i.e. when `s` is empty
    or is not an optionally signed, optionally whitespace-surrounded digit
    string — containing a non-digit character is not by itself a failure. -/
theorem C5_parse_digit_format_specifier (s : Str) :
    ((parse_digit_format_specifier s).isOk = false ↔ pyIntOfString s = none) ∧
    (pyIsDigit s = true →
      parse_digit_format_specifier s =
        .ok (if s.length > 1 then '%' :: '0' :: (natToDigits s.length ++ ['d'])
             else ['%', 'd'])) := by
  constructor
  · unfold parse_digit_format_specifier
    rcases hi : pyIntOfString s with _ | v
    · simp
    · simp only []
      constructor
      · intro h
        split at h <;> simp at h
      · intro h
        exact absurd h (by simp)
  · intro h
    unfold parse_digit_format_specifier
    rw [pyIntOfString_digits h]
    show (if s.length > 1 then _ else _) = _
    split <;> rfl

/-- C5 witness: evaluating the amended statement at "077" and "8". -/
theorem C5_witness :
    parse_digit_format_specifier (str "077") = .ok (str "%03d") ∧
    parse_digit_format_specifier (str "8") = .ok (str "%d") ∧
    (parse_digit_format_specifier (str "")).isOk = false := by
  refine ⟨?_, ?_, ?_⟩
  · exact (C5_parse_digit_format_specifier (str "077")).2 (by decide)
  · exact (C5_parse_digit_format_specifier (str "8")).2 (by decide)
  · exact ((C5_parse_digit_format_specifier (str "")).1).mpr (by rfl)

/-! # C6: `to_re_pattern` -/

theorem pyIsDigit_of {s : Str} (hne : s ≠ []) (h : ∀ c ∈ s, c.isDigit = true) :
    pyIsDigit s = true := by
  unfold pyIsDigit
  rcases s with _ | ⟨c, r⟩
  · exact absurd rfl hne
  · simp [List.all_eq_true.mpr h]

theorem dfsAfterPercent_digits {D : Str} (t : Str) (h : ∀ c ∈ D, c.isDigit = true) :
    dfsAfterPercent (D ++ 'd' :: t) = true := by
  induction D with
  | nil => rfl
  | cons c r ih =>
    have hc := h c (by simp)
    have hcd : c ≠ 'd' := fun e => absurd (e ▸ hc) (by decide)
    show (if c = 'd' then true else if c.isDigit then dfsAfterPercent (r ++ 'd' :: t) else false) =
      true
    rw [if_neg hcd, if_pos hc]
    exact ih (fun x hx => h x (by simp [hx]))

theorem hasDfs_canonical {D : Str} (h : ∀ c ∈ D, c.isDigit = true) :
    has_digit_format_specifier ('%' :: '0' :: (D ++ ['d'])) = true := by
  show (dfsStartsAt ('%' :: '0' :: (D ++ ['d'])) || _) = true
  have h1 : dfsStartsAt ('%' :: '0' :: (D ++ ['d'])) = dfsAfterPercent (D ++ ['d']) := rfl
  have h2 : D ++ ['d'] = D ++ 'd' :: [] := rfl
  rw [h1, h2, dfsAfterPercent_digits [] h]
  rfl

theorem natOfDigits_single (c : Char) : natOfDigits [c] = digitVal c := by
  show natOfDigitsAux 0 [c] = digitVal c
  rw [natOfDigitsAux_cons, natOfDigitsAux_nil]
  omega

/-- `to_re_pattern` on a canonical `%0<D>d` specifier. -/
theorem to_re_pattern_canonical (st : Bool) (D : Str) (hne : D ≠ [])
    (hdig : ∀ c ∈ D, c.isDigit = true) :
    to_re_pattern ('%' :: '0' :: (D ++ ['d'])) st =
      .ok ((if st then str "\\d\x7b" else str "\\d\x7b1,") ++
        natToDigits (natOfDigits D) ++ str "\x7d") := by
  have hspec_ne : ('%' :: '0' :: (D ++ ['d'])) ≠ ['%', 'd'] := by
    intro he
    have := congrArg List.length he
    rcases D with _ | ⟨c, r⟩
    · exact absurd rfl hne
    · simp at this
  unfold to_re_pattern
  rw [if_neg (by rw [hasDfs_canonical hdig]; simp), if_pos hspec_ne]
  rcases D with _ | ⟨c, r⟩
  · exact absurd rfl hne
  rcases r with _ | ⟨c2, r2⟩
  · -- single-digit width: read spec[-2]
    have hgd : (('%' :: '0' :: ([c] ++ ['d'])).getD (('%' :: '0' :: ([c] ++ ['d'])).length - 2) ' ') = c := by
      rfl
    rw [hgd]
    have hc := hdig c (by simp)
    rw [if_pos hc, if_neg (by simp)]
    rw [natOfDigits_single, ← intToPyStr_ofNat]
    cases st <;> rfl
  · -- multi-digit width: int of the slice spec[2:-1]
    have hdrop : (('%' :: '0' :: ((c :: c2 :: r2) ++ ['d'])).drop 2) = (c :: c2 :: r2) ++ ['d'] := rfl
    have hlen2 : ('%' :: '0' :: ((c :: c2 :: r2) ++ ['d'])).length - 3 = (c :: c2 :: r2).length := by
      simp
    rw [if_pos (by simp), hdrop, hlen2, List.take_left]
    rw [pyIntOfString_digits (pyIsDigit_of (by simp) hdig)]
    rw [← intToPyStr_ofNat]
    cases st <;> rfl

/-- C6: for the canonical digit format specifiers, `to_re_pattern` renders
    `%d` (width 0) as `\d+` for either strictness; a specifier `%0<D>d` of
    width `W = int(D) ≥ 1` as `\d{W}` when strict and `\d{1,W}` when not;
    and fails on inputs with no digit format specifier. -/
theorem C6_to_re_pattern (strict : Bool) (D : Str) (hne : D ≠ [])
    (hdig : ∀ c ∈ D, c.isDigit = true) (hw : 1 ≤ natOfDigits D) :
    to_re_pattern ['%', 'd'] strict = .ok (str "\\d+") ∧
    to_re_pattern ('%' :: '0' :: (D ++ ['d'])) true =
      .ok (str "\\d\x7b" ++ natToDigits (natOfDigits D) ++ str "\x7d") ∧
    to_re_pattern ('%' :: '0' :: (D ++ ['d'])) false =
      .ok (str "\\d\x7b1," ++ natToDigits (natOfDigits D) ++ str "\x7d") ∧
    (∀ spec, has_digit_format_specifier spec = false →
      (to_re_pattern spec strict).isOk = false) := by
  have hkey : ∀ st : Bool, to_re_pattern ('%' :: '0' :: (D ++ ['d'])) st =
      .ok ((if st then str "\\d\x7b" else str "\\d\x7b1,") ++
        natToDigits (natOfDigits D) ++ str "\x7d") := fun st =>
    to_re_pattern_canonical st D hne hdig
  refine ⟨?_, ?_, ?_, ?_⟩
  · unfold to_re_pattern
    rw [if_neg (by decide), if_neg (by simp)]
  · rw [hkey true]
    rfl
  · rw [hkey false]
    rfl
  · intro spec hno
    unfold to_re_pattern
    rw [if_pos hno]
    rfl

/-- C6 witness: evaluation at width 3. -/
theorem C6_witness :
    to_re_pattern (str "%03d") true = .ok (str "\\d\x7b3\x7d") ∧
    to_re_pattern (str "%03d") false = .ok (str "\\d\x7b1,3\x7d") ∧
    to_re_pattern (str "%d") true = .ok (str "\\d+") := by
  have h := C6_to_re_pattern true ['3'] (by decide) (by decide) (by decide)
  have h2 := C6_to_re_pattern false ['3'] (by decide) (by decide) (by decide)
  exact ⟨h.2.1, h2.2.2.1, h.1⟩

/-! # C4: single-file inference -/

theorem hasDfs_eq_false_of_no_pct {s : Str} (h : '%' ∉ s) :
    has_digit_format_specifier s = false := by
  induction s with
  | nil => rfl
  | cons c r ih =>
    have hc : c ≠ '%' := fun e => h (e ▸ List.mem_cons_self c r)
    have hr : '%' ∉ r := fun hm => h (List.mem_cons_of_mem c hm)
    show (dfsStartsAt (c :: r) || has_digit_format_specifier r) = false
    have h1 : dfsStartsAt (c :: r) = false := by
      show (if c = '%' then dfsAfterPercent r else false) = false
      rw [if_neg hc]
    rw [h1, ih hr]
    rfl

/-- C4: with fewer than two files of the sample's extension, `infer`
    returns the single-file descriptor: `start_num = -1`, the literal
    filename as the pattern (which, the filename holding no percent sign,
    contains no digit format specifier), and the diagnostic message; no
    further inference runs. -/
theorem C4_infer_single (filename : Str) (files : List Str) (isFileExt isFileAny : Str → Bool)
    (hcount : files.length < 2) (hp : '%' ∉ filename) :
    infer filename files isFileExt isFileAny =
      .ok { dfs_filename := filename, start_num := -1,
            messages := [single_image_message filename] } ∧
    has_digit_format_specifier filename = false := by
  constructor
  · unfold infer
    rw [if_pos hcount]
  · exact hasDfs_eq_false_of_no_pct hp

/-- C4 witness: a lone `single.png`. -/
theorem C4_witness :
    infer (str "single.png") [str "single.png"] (fun _ => true) (fun _ => false) =
      .ok { dfs_filename := str "single.png", start_num := -1,
            messages := [single_image_message (str "single.png")] } :=
  (C4_infer_single (str "single.png") [str "single.png"] (fun _ => true) (fun _ => false)
    (by decide) (by decide)).1

/-! # C1: `detect_gaps` -/

/-- A definition following the claim's words: render the pattern for every
    `i` from `start_number` up to `start_number + sibling-file-count - 1`
    and collect the misses. -/
def detectGapsClaimed (start_num : Int) (dfs_filename : Str) (files : List Str) :
    Option (List Str) :=
  if start_num < 0 then none
  else
    let idxs := List.range' start_num.toNat files.length
    let missing := (idxs.map (fun (i : Nat) => pyFormat dfs_filename (i : Int))).filter
      (fun fname => !files.contains fname)
    if 0 < missing.length then some missing else none

/-- C1 counterexample: with files `frame_1.png, frame_3.png` (a sequence
    resolved to start at 1, pattern `frame_%d.png`), the claim prescribes
    scanning i = 1, 2 and reporting `frame_2.png`; the code scans
    `xrange(start_num, len(files))` = {1} only and reports no gap. -/
theorem C1_counterexample :
    detect_gaps 1 (str "frame_%d.png") [str "frame_1.png", str "frame_3.png"] = none ∧
    detectGapsClaimed 1 (str "frame_%d.png") [str "frame_1.png", str "frame_3.png"] =
      some [str "frame_2.png"] := by
  constructor <;> rfl

theorem range'_eq_filter_range (a n : Nat) :
    List.range' a (n - a) = (List.range n).filter (fun i => decide (a ≤ i)) := by
  induction n with
  | zero => simp
  | succ m ih =>
    rw [List.range_succ, List.filter_append]
    by_cases hle : a ≤ m
    · have h1 : m + 1 - a = (m - a) + 1 := by omega
      rw [h1, List.range'_concat, ih, show a + 1 * (m - a) = m from by omega]
      congr 1
      simp [hle]
    · have h1 : m + 1 - a = 0 := by omega
      have h2 : m - a = 0 := by omega
      rw [h1]
      rw [h2] at ih
      rw [← ih]
      simp [hle]

/-- C1 (amended): `detect_gaps` returns `None` for single-file descriptors
    (`start_number < 0`); otherwise it renders the canonical pattern for
    every integer `i` from `start_number` up to the sibling-file-count − 1
    (not `start_number + count − 1`): it returns `None` exactly when every
    such rendering is present among the sibling files, and otherwise the
    list of the missing renderings in increasing order of `i`. -/
theorem C1_detect_gaps (start : Int) (dfs : Str) (files : List Str) :
    (start < 0 → detect_gaps start dfs files = none) ∧
    (0 ≤ start →
      ((detect_gaps start dfs files = none ↔
          ∀ i, start.toNat ≤ i → i < files.length → pyFormat dfs (i : Int) ∈ files) ∧
       (∀ l, detect_gaps start dfs files = some l →
          l = ((List.range files.length).filter
                 (fun i => decide (start.toNat ≤ i) && !files.contains (pyFormat dfs (i : Int)))).map
               (fun (i : Nat) => pyFormat dfs (i : Int))))) := by
  constructor
  · intro hneg
    unfold detect_gaps
    rw [if_pos hneg]
  · intro hpos
    have hins : detect_gaps start dfs files =
        (if 0 < (((List.range' start.toNat (files.length - start.toNat)).map
              (fun (i : Nat) => pyFormat dfs (i : Int))).filter
              (fun fname => !files.contains fname)).length
         then some (((List.range' start.toNat (files.length - start.toNat)).map
              (fun (i : Nat) => pyFormat dfs (i : Int))).filter
              (fun fname => !files.contains fname))
         else none) := by
      unfold detect_gaps
      rw [if_neg (by omega)]
    have hmiss : (((List.range' start.toNat (files.length - start.toNat)).map
          (fun (i : Nat) => pyFormat dfs (i : Int))).filter (fun fname => !files.contains fname)) =
        ((List.range files.length).filter
           (fun i => decide (start.toNat ≤ i) && !files.contains (pyFormat dfs (i : Int)))).map
         (fun (i : Nat) => pyFormat dfs (i : Int)) := by
      rw [List.filter_map, range'_eq_filter_range, List.filter_filter]
      congr 1
      apply List.filter_congr
      intro x _
      exact Bool.and_comm _ _
    constructor
    · rw [hins]
      constructor
      · intro h i hi1 hi2
        by_cases hc : 0 < (((List.range' start.toNat (files.length - start.toNat)).map
            (fun (i : Nat) => pyFormat dfs (i : Int))).filter (fun fname => !files.contains fname)).length
        · rw [if_pos hc] at h
          exact absurd h (by simp)
        · rw [List.length_pos, ne_eq, not_not] at hc
          have := List.filter_eq_nil_iff.mp hc (pyFormat dfs (i : Int))
            (List.mem_map.mpr ⟨i, List.mem_range'_1.mpr ⟨hi1, by omega⟩, rfl⟩)
          simp at this
          exact this
      · intro h
        rw [if_neg]
        intro hc
        rw [List.length_pos] at hc
        rcases List.exists_mem_of_ne_nil _ hc with ⟨x, hx⟩
        rcases List.mem_filter.mp hx with ⟨hx1, hx2⟩
        rcases List.mem_map.mp hx1 with ⟨i, hi, rfl⟩
        rcases List.mem_range'_1.mp hi with ⟨hi1, hi2⟩
        have := h i hi1 (by omega)
        simp [this] at hx2
    · intro l hl
      rw [hins] at hl
      by_cases hc : 0 < (((List.range' start.toNat (files.length - start.toNat)).map
          (fun (i : Nat) => pyFormat dfs (i : Int))).filter (fun fname => !files.contains fname)).length
      · rw [if_pos hc] at hl
        injection hl with hl'
        rw [← hl', hmiss]
      · rw [if_neg hc] at hl
        exact absurd hl (by simp)

/-- C1 witness: the spec's own example (`frame_0.png, frame_2.png`,
    missing `frame_1.png`) and a single-file case, read off the amended
    characterization. -/
theorem C1_witness :
    detect_gaps 0 (str "frame_%d.png") [str "frame_0.png", str "frame_2.png"] =
      some [str "frame_1.png"] ∧
    detect_gaps (-1) (str "single.png") [str "single.png"] = none := by
  constructor
  · have h := (C1_detect_gaps 0 (str "frame_%d.png")
      [str "frame_0.png", str "frame_2.png"]).2 (by decide)
    rcases hv : detect_gaps 0 (str "frame_%d.png") [str "frame_0.png", str "frame_2.png"] with
      _ | l
    · have := h.1.mp hv 1 (by decide) (by decide)
      exact absurd this (by decide)
    · rw [h.2 l hv]
      rfl
  · exact (C1_detect_gaps (-1) (str "single.png") [str "single.png"]).1 (by decide)

/-! # C3: `get_start_number` -/

@[simp] theorem scanDown_nil (p : Nat → Bool) (other : Int) : scanDown p [] other = other := rfl

@[simp] theorem scanDown_cons (p : Nat → Bool) (i : Nat) (rest : List Nat) (other : Int) :
    scanDown p (i :: rest) other = scanDown p rest (if p i then (i : Int) else other) := rfl

/-- Scanning `[n-1, ..., 0]` leaves the smallest index satisfying `p`
    (the last one assigned), or the initial value when none does. -/
theorem scanDown_range_reverse (p : Nat → Bool) :
    ∀ n o, scanDown p ((List.range n).reverse) o =
      if h : ∃ i, i < n ∧ p i = true then ((Nat.find h : Nat) : Int) else o := by
  intro n
  induction n with
  | zero =>
    intro o
    rw [dif_neg (by omega)]
    rfl
  | succ m ih =>
    intro o
    rw [List.range_succ, List.reverse_append]
    simp only [List.reverse_singleton, List.singleton_append, scanDown_cons]
    rw [ih]
    by_cases hm : ∃ i, i < m ∧ p i = true
    · rw [dif_pos hm]
      rcases hm with ⟨j, hj1, hj2⟩
      have hm1 : ∃ i, i < m + 1 ∧ p i = true := ⟨j, by omega, hj2⟩
      rw [dif_pos hm1]
      have e1 := Nat.find_spec (⟨j, hj1, hj2⟩ : ∃ i, i < m ∧ p i = true)
      have e2 := Nat.find_spec hm1
      have le1 : Nat.find hm1 ≤ Nat.find (⟨j, hj1, hj2⟩ : ∃ i, i < m ∧ p i = true) :=
        Nat.find_min' hm1 ⟨by omega, e1.2⟩
      have le2 : Nat.find (⟨j, hj1, hj2⟩ : ∃ i, i < m ∧ p i = true) ≤ Nat.find hm1 := by
        apply Nat.find_min'
        constructor
        · rcases Nat.lt_or_ge (Nat.find hm1) m with hlt | hge
          · exact hlt
          · exfalso
            have : Nat.find hm1 = m := by omega
            have hfind := Nat.find_min hm1 (m := Nat.find (⟨j, hj1, hj2⟩ : ∃ i, i < m ∧ p i = true))
            rw [this] at hfind
            exact hfind (by omega) ⟨by omega, e1.2⟩
        · exact e2.2
      congr 1
      omega
    · rw [dif_neg hm]
      by_cases hp : p m = true
      · rw [if_pos hp]
        have hm1 : ∃ i, i < m + 1 ∧ p i = true := ⟨m, by omega, hp⟩
        rw [dif_pos hm1]
        have : Nat.find hm1 = m := by
          rw [Nat.find_eq_iff]
          refine ⟨⟨by omega, hp⟩, ?_⟩
          intro k hk
          intro hc
          exact hm ⟨k, hk, hc.2⟩
        rw [this]
      · rw [if_neg (by simp [hp])]
        rw [dif_neg]
        intro hc
        rcases hc with ⟨i, hi1, hi2⟩
        rcases Nat.lt_or_ge i m with hlt | hge
        · exact hm ⟨i, hlt, hi2⟩
        · have : i = m := by omega
          rw [this] at hi2
          exact hp hi2

/-- C3: for every multi-file descriptor (`0 ≤ start_num`),
    `get_start_number` returns the smallest `i < start_num` for which a
    file rendered with `i` exists (`p i`), even when larger existing `i`
    are encountered first in the downward scan, and `start_num` itself
    when no such `i` exists. -/
theorem C3_get_start_number (p : Nat → Bool) (start : Int) (h : 0 ≤ start) :
    get_start_number p start =
      if h' : ∃ i, i < start.toNat ∧ p i = true then ((Nat.find h' : Nat) : Int) else start := by
  unfold get_start_number
  by_cases h0 : starts_at_zero start = true
  · rw [if_pos h0]
    have hz : start = 0 := by
      unfold starts_at_zero at h0
      exact eq_of_beq h0
    subst hz
    rw [dif_neg (by omega)]
    rfl
  · rw [if_neg h0]
    rw [scanDown_range_reverse]
    by_cases h' : ∃ i, i < start.toNat ∧ p i = true
    · rw [dif_pos h', dif_pos h']
      rw [if_neg (by omega)]
    · rw [dif_neg h', dif_neg h']
      rw [if_pos (by omega)]

/-- C3 witness: files exist at 4 and at 2 below a sample number of 7; the
    downward scan continues past 4 and returns the minimum 2. -/
theorem C3_witness :
    get_start_number (fun i => i == 2 || i == 4) 7 = 2 ∧
    get_start_number (fun _ => false) 5 = 5 := by
  constructor
  · have h := C3_get_start_number (fun i => i == 2 || i == 4) 7 (by decide)
    rw [h, dif_pos ⟨2, by decide, by decide⟩]
    have : Nat.find (⟨2, by decide, by decide⟩ :
        ∃ i, i < (7 : Int).toNat ∧ (fun i => i == 2 || i == 4) i = true) = 2 := by
      rw [Nat.find_eq_iff]
      exact ⟨⟨by decide, by decide⟩, by decide⟩
    rw [this]
    rfl
  · have h := C3_get_start_number (fun _ => false) 5 (by decide)
    rw [h, dif_neg (by simp)]

/-! # C7: `split_at_digit` invariants -/

@[simp] theorem splitLoop_nil (prev : Bool) (cur : Str) : splitLoop [] prev cur = [cur] := rfl

theorem splitLoop_cons (c : Char) (cs : Str) (prev : Bool) (cur : Str) :
    splitLoop (c :: cs) prev cur =
      if (!c.isDigit && !prev) || (c.isDigit && prev) then
        splitLoop cs c.isDigit (cur ++ [c])
      else cur :: splitLoop cs c.isDigit [c] := rfl

theorem splitLoop_ne_nil : ∀ (cs : Str) (prev : Bool) (cur : Str), splitLoop cs prev cur ≠ [] := by
  intro cs
  induction cs with
  | nil => intro prev cur; simp
  | cons c r ih =>
    intro prev cur
    rw [splitLoop_cons]
    split
    · exact ih _ _
    · simp

theorem splitLoop_flatten : ∀ (cs : Str) (prev : Bool) (cur : Str),
    (splitLoop cs prev cur).flatten = cur ++ cs := by
  intro cs
  induction cs with
  | nil => intro prev cur; simp
  | cons c r ih =>
    intro prev cur
    rw [splitLoop_cons]
    split
    · rw [ih]
      simp
    · show cur ++ (splitLoop r c.isDigit [c]).flatten = _
      rw [ih]
      simp

/-- The digit/non-digit condition of the loop is same-class equality. -/
theorem splitLoop_cond (d prev : Bool) :
    ((!d && !prev) || (d && prev)) = (d == prev) := by
  cases d <;> cases prev <;> rfl

/-- Alternating-class well-formedness of a segment list: each segment is
    nonempty and uniformly of the stated class, and classes alternate. -/
def segsOK : Bool → List Str → Prop
  | _, [] => True
  | b, s :: rest => s ≠ [] ∧ (∀ c ∈ s, c.isDigit = b) ∧ segsOK (!b) rest

theorem splitLoop_segsOK : ∀ (cs : Str) (prev : Bool) (cur : Str), cur ≠ [] →
    (∀ c ∈ cur, c.isDigit = prev) → segsOK prev (splitLoop cs prev cur) := by
  intro cs
  induction cs with
  | nil =>
    intro prev cur h1 h2
    exact ⟨h1, h2, trivial⟩
  | cons c r ih =>
    intro prev cur h1 h2
    rw [splitLoop_cons, splitLoop_cond]
    by_cases hd : c.isDigit = prev
    · rw [if_pos (by simp [hd])]
      have := ih c.isDigit (cur ++ [c]) (by simp)
        (by
          intro x hx
          rcases List.mem_append.mp hx with hx1 | hx2
          · rw [h2 x hx1, hd]
          · simp only [List.mem_singleton] at hx2
            subst hx2
            rfl)
      rw [hd] at this ⊢
      exact this
    · rw [if_neg (by simp [hd])]
      refine ⟨h1, h2, ?_⟩
      have hneg : c.isDigit = !prev := by
        cases hcd : c.isDigit <;> cases hp : prev <;> simp_all
      have := ih c.isDigit [c] (by simp)
        (by intro x hx; simp only [List.mem_singleton] at hx; subst hx; rfl)
      rw [hneg] at this ⊢
      exact this

theorem segsOK_ne_nil : ∀ (L : List Str) (b : Bool), segsOK b L → ∀ s ∈ L, s ≠ [] := by
  intro L
  induction L with
  | nil => intro b _ s hs; exact absurd hs (by simp)
  | cons x rest ih =>
    intro b h s hs
    rcases h with ⟨h1, _, h3⟩
    rcases List.mem_cons.mp hs with rfl | hmem
    · exact h1
    · exact ih (!b) h3 s hmem

theorem all_digit_class {s : Str} {b : Bool} (hne : s ≠ []) (h : ∀ c ∈ s, c.isDigit = b) :
    s.all Char.isDigit = b := by
  cases b
  · rcases s with _ | ⟨c, r⟩
    · exact absurd rfl hne
    · have := h c (by simp)
      simp [List.all_cons, this]
  · exact List.all_eq_true.mpr h

theorem segsOK_chain : ∀ (L : List Str) (b : Bool), segsOK b L →
    List.Chain' (fun s t => s.all Char.isDigit ≠ t.all Char.isDigit) L := by
  intro L
  induction L with
  | nil => intro b _; exact List.chain'_nil
  | cons x rest ih =>
    intro b h
    rcases h with ⟨h1, h2, h3⟩
    rcases rest with _ | ⟨y, rest2⟩
    · exact List.chain'_singleton x
    · rcases h3 with ⟨g1, g2, g3⟩
      refine List.Chain'.cons ?_ (ih (!b) ⟨g1, g2, g3⟩)
      rw [all_digit_class h1 h2, all_digit_class g1 g2]
      cases b <;> simp

theorem get_body_split (root : Str) (h : root ≠ []) :
    get_body (split_at_digit root) = splitRootList root := by
  have hne : splitRootList root ≠ [] := by
    rcases root with _ | ⟨c, rest⟩
    · exact absurd rfl h
    · exact splitLoop_ne_nil rest c.isDigit [c]
  unfold get_body split_at_digit
  rcases hsr : splitRootList root with _ | ⟨a, rest⟩
  · exact absurd hsr hne
  rcases rest with _ | ⟨b, rest2⟩
  · rfl
  rcases rest2 with _ | ⟨d, rest3⟩
  · rfl
  · -- length ≥ 3
    simp only [List.headD_cons, List.length_cons]
    rw [if_neg (by omega), if_neg (by omega)]
    have hne2 : (b :: d :: rest3) ≠ ([] : List Str) := by simp
    simp only [List.drop_one, List.tail_cons]
    rw [List.getLast?_eq_getLast _ (by simp)]
    show [a] ++ ((b :: d :: rest3).dropLast ++ [(a :: b :: d :: rest3).getLast (by simp)]) = _
    have : (a :: b :: d :: rest3).getLast (by simp) = (b :: d :: rest3).getLast (by simp) := by
      rw [List.getLast_cons]
    rw [this, List.dropLast_append_getLast]
    rfl

/-- C7: for a nonempty root, the body segments of `split_at_digit`
    reassemble exactly to the root, no segment is empty, adjacent segments
    never share the digit/non-digit class (maximal runs), and a root of
    length 1 yields a single segment. -/
theorem C7_split_at_digit (root : Str) (h : root ≠ []) :
    (get_body (split_at_digit root)).flatten = root ∧
    (∀ seg ∈ get_body (split_at_digit root), seg ≠ []) ∧
    List.Chain' (fun s t => s.all Char.isDigit ≠ t.all Char.isDigit)
      (get_body (split_at_digit root)) ∧
    (root.length = 1 → (get_body (split_at_digit root)).length = 1) := by
  rw [get_body_split root h]
  rcases root with _ | ⟨c, rest⟩
  · exact absurd rfl h
  have hOK : segsOK c.isDigit (splitLoop rest c.isDigit [c]) :=
    splitLoop_segsOK rest c.isDigit [c] (by simp)
      (by intro x hx; simp only [List.mem_singleton] at hx; subst hx; rfl)
  refine ⟨?_, ?_, ?_, ?_⟩
  · show (splitLoop rest c.isDigit [c]).flatten = _
    rw [splitLoop_flatten]
    rfl
  · exact segsOK_ne_nil _ _ hOK
  · exact segsOK_chain _ _ hOK
  · intro hlen
    have : rest = [] := by
      simp only [List.length_cons] at hlen
      exact List.eq_nil_of_length_eq_zero (by omega)
    subst this
    rfl

/-- C7 witness: the root `img_07a`. -/
theorem C7_witness :
    (get_body (split_at_digit (str "img_07a"))).flatten = str "img_07a" ∧
    (get_body (split_at_digit (str "x"))).length = 1 := by
  constructor
  · exact (C7_split_at_digit (str "img_07a") (by decide)).1
  · exact (C7_split_at_digit (str "x") (by decide)).2.2.2 (by decide)

/-! # C8: the `max_count` sampling bound of `_predict_sequence` -/

@[simp] theorem segScoreLoop_nil (strict : Bool) (mc : Nat) (isF : Str → Bool) (fn : Str)
    (si : Nat) (seg : Str) (total count : Nat) :
    segScoreLoop strict mc isF fn si seg [] total count = total := rfl

theorem segScoreLoop_cons (strict : Bool) (mc : Nat) (isF : Str → Bool) (fn : Str)
    (si : Nat) (seg : Str) (f : Str) (fs : List Str) (total count : Nat) :
    segScoreLoop strict mc isF fn si seg (f :: fs) total count =
      if !strict && decide (mc ≤ count) then total
      else
        segScoreLoop strict mc isF fn si seg fs
          (if isF f && decide (f ≠ fn) then
            total + levenshtein_distance (((splitExt f).1.drop si).take seg.length) seg
          else total) (count + 1) := rfl

/-- With `strict=False` the scoring loop inspects exactly the first
    `maxCount - count` remaining files: it computes the same total as a
    full (strict) pass over that prefix. -/
theorem segScoreLoop_take (mc : Nat) (isF : Str → Bool) (fn : Str) (si : Nat) (seg : Str) :
    ∀ (files : List Str) (total count : Nat),
      segScoreLoop false mc isF fn si seg files total count =
        segScoreLoop true mc isF fn si seg (files.take (mc - count)) total count := by
  intro files
  induction files with
  | nil => intro total count; simp
  | cons f fs ih =>
    intro total count
    rw [segScoreLoop_cons]
    by_cases hc : mc ≤ count
    · rw [if_pos (by simp [hc])]
      rw [show mc - count = 0 from by omega]
      rfl
    · rw [if_neg (by simp [hc])]
      rw [show mc - count = (mc - (count + 1)) + 1 from by omega, List.take_succ_cons]
      rw [show segScoreLoop true mc isF fn si seg (f :: List.take (mc - (count + 1)) fs)
            total count =
          segScoreLoop true mc isF fn si seg (List.take (mc - (count + 1)) fs)
            (if isF f && decide (f ≠ fn) then
              total + levenshtein_distance (((splitExt f).1.drop si).take seg.length) seg
            else total) (count + 1) from rfl]
      exact ih _ _

@[simp] theorem predictAux_nil (strict : Bool) (mc : Nat) (isF : Str → Bool) (fn : Str)
    (files : List Str) (i si : Nat) :
    predictAux strict mc isF fn files [] i si = [] := rfl

theorem predictAux_cons (strict : Bool) (mc : Nat) (isF : Str → Bool) (fn : Str)
    (files : List Str) (seg : Str) (rest : List Str) (i si : Nat) :
    predictAux strict mc isF fn files (seg :: rest) i si =
      (if decide (0 < segScoreLoop strict mc isF fn si seg files 0 0) && pyIsDigit seg then
        i :: predictAux strict mc isF fn files rest (i + 1) (si + seg.length)
      else predictAux strict mc isF fn files rest (i + 1) (si + seg.length)) := rfl

theorem predictAux_take (mc : Nat) (isF : Str → Bool) (fn : Str) (files : List Str) :
    ∀ (body : List Str) (i si : Nat),
      predictAux false mc isF fn files body i si =
        predictAux true mc isF fn (files.take mc) body i si := by
  intro body
  induction body with
  | nil => intro i si; rfl
  | cons seg rest ih =>
    intro i si
    rw [predictAux_cons, predictAux_cons, ih]
    rw [show segScoreLoop false mc isF fn si seg files 0 0 =
        segScoreLoop true mc isF fn si seg (files.take mc) 0 0 from by
      rw [segScoreLoop_take, Nat.sub_zero]]

/-- C8: the `max_count` used by `_predict_sequence` is
    `10 ^ (digits(fileCount) - 1)` — the file count rounded down to a power
    of ten — unless that is at most 10, in which case every file is
    scanned; and with `strict=False` the prediction over all files equals a
    full scan restricted to the first `max_count` files, for every body. -/
theorem C8_sampling_bound (isFileExt : Str → Bool) (filename : Str) (files : List Str) :
    maxCountFor files.length =
      (if 10 < 10 ^ ((natToDigits files.length).length - 1)
       then 10 ^ ((natToDigits files.length).length - 1) else files.length) ∧
    (∀ (body : List Str) (i si : Nat),
      predictAux false (maxCountFor files.length) isFileExt filename files body i si =
        predictAux true (maxCountFor files.length) isFileExt filename
          (files.take (maxCountFor files.length)) body i si) := by
  constructor
  · unfold maxCountFor
    rw [natOfDigits_one_zeros]
  · exact predictAux_take _ _ _ _

/-! # C2: candidate classification and the ambiguity failures -/

/-- Membership in the predicted indices: `j` is predicted exactly when the
    `j`-th body component (counting from `i0` at string offset `si0`) is
    all digits and scores a positive accumulated distance. -/
theorem predictAux_mem (strict : Bool) (mc : Nat) (isF : Str → Bool) (fn : Str)
    (files : List Str) :
    ∀ (body : List Str) (i0 si0 j : Nat),
      j ∈ predictAux strict mc isF fn files body i0 si0 ↔
        ∃ k, k < body.length ∧ j = i0 + k ∧ pyIsDigit (body.getD k []) = true ∧
          0 < segScoreLoop strict mc isF fn (si0 + (body.take k).flatten.length)
              (body.getD k []) files 0 0 := by
  intro body
  induction body with
  | nil =>
    intro i0 si0 j
    simp
  | cons seg rest ih =>
    intro i0 si0 j
    rw [predictAux_cons]
    have hsum : ∀ k' : Nat, si0 + (((seg :: rest).take (k' + 1)).flatten).length =
        (si0 + seg.length) + ((rest.take k').flatten).length := by
      intro k'
      rw [List.take_succ_cons]
      simp only [List.flatten_cons, List.length_append]
      omega
    by_cases hcond : (decide (0 < segScoreLoop strict mc isF fn si0 seg files 0 0) &&
        pyIsDigit seg) = true
    · rw [if_pos hcond]
      have hc : 0 < segScoreLoop strict mc isF fn si0 seg files 0 0 ∧ pyIsDigit seg = true := by
        simpa using hcond
      constructor
      · intro hj
        rcases List.mem_cons.mp hj with rfl | hmem
        · exact ⟨0, by simp, by omega, by simpa using hc.2, by simpa using hc.1⟩
        · rcases (ih (i0 + 1) (si0 + seg.length) j).mp hmem with ⟨k', hk1, hk2, hk3, hk4⟩
          refine ⟨k' + 1, by simp; omega, by omega, by simpa using hk3, ?_⟩
          rw [hsum k']
          simpa using hk4
      · intro hex
        rcases hex with ⟨k, hk1, hk2, hk3, hk4⟩
        rcases k with _ | k'
        · have : j = i0 := by omega
          subst this
          exact List.mem_cons_self _ _
        · apply List.mem_cons_of_mem
          apply (ih (i0 + 1) (si0 + seg.length) j).mpr
          refine ⟨k', by simp at hk1; omega, by omega, by simpa using hk3, ?_⟩
          rw [hsum k'] at hk4
          simpa using hk4
    · rw [if_neg hcond]
      rw [ih (i0 + 1) (si0 + seg.length) j]
      constructor
      · intro hex
        rcases hex with ⟨k', hk1, hk2, hk3, hk4⟩
        refine ⟨k' + 1, by simp; omega, by omega, by simpa using hk3, ?_⟩
        rw [hsum k']
        simpa using hk4
      · intro hex
        rcases hex with ⟨k, hk1, hk2, hk3, hk4⟩
        rcases k with _ | k'
        · exfalso
          apply hcond
          simp only [List.getD_cons_zero] at hk3 hk4
          simp only [List.take_zero, List.flatten_nil, List.length_nil, Nat.add_zero] at hk4
          simp [hk3, hk4]
        · refine ⟨k', by simp at hk1; omega, by omega, by simpa using hk3, ?_⟩
          rw [hsum k'] at hk4
          simpa using hk4

theorem predict_sequence_eq (body : List Str) (strict : Bool) (files : List Str)
    (isF : Str → Bool) (fn : Str) :
    predict_sequence body strict files isF fn =
      (if (decide ((predictAux strict (maxCountFor files.length) isF fn files body 0 0).length < 1) ||
          decide (body.length <
            (predictAux strict (maxCountFor files.length) isF fn files body 0 0).length)) = true
       then (Except.error "Unable to predict number sequence" : Except String (List Nat))
       else .ok (predictAux strict (maxCountFor files.length) isF fn files body 0 0)) := rfl

theorem predict_sequence_ok_inv {body : List Str} {strict : Bool} {files : List Str}
    {isF : Str → Bool} {fn : Str} {bsi : List Nat}
    (h : predict_sequence body strict files isF fn = .ok bsi) :
    bsi = predictAux strict (maxCountFor files.length) isF fn files body 0 0 := by
  rw [predict_sequence_eq] at h
  split at h
  · exact absurd h (by simp)
  · injection h with h'
    exact h'.symm

theorem predict_sequence_error_iff (body : List Str) (strict : Bool) (files : List Str)
    (isF : Str → Bool) (fn : Str) :
    ((predict_sequence body strict files isF fn).isOk = false ↔
      (predictAux strict (maxCountFor files.length) isF fn files body 0 0 = [] ∨
       body.length <
         (predictAux strict (maxCountFor files.length) isF fn files body 0 0).length)) := by
  rw [predict_sequence_eq]
  by_cases hc : (predictAux strict (maxCountFor files.length) isF fn files body 0 0).length < 1 ∨
      body.length < (predictAux strict (maxCountFor files.length) isF fn files body 0 0).length
  · rw [if_pos (by simp only [Bool.or_eq_true, decide_eq_true_eq]; exact hc)]
    simp only [isOk_error]
    constructor
    · intro _
      rcases hc with hc1 | hc2
      · exact Or.inl (List.eq_nil_of_length_eq_zero (by omega))
      · exact Or.inr hc2
    · intro _
      trivial
  · rw [if_neg (by simpa using hc)]
    simp only [isOk_ok]
    constructor
    · intro h
      exact absurd h (by simp)
    · intro h
      exfalso
      apply hc
      rcases h with h1 | h2
      · exact Or.inl (by rw [h1]; simp)
      · exact Or.inr h2

/-- The specifier produced for an all-digit component. -/
def dfsOf (s : Str) : Str :=
  if s.length > 1 then '%' :: '0' :: (natToDigits s.length ++ ['d']) else ['%', 'd']

theorem parse_dfs_digits {s : Str} (h : pyIsDigit s = true) :
    parse_digit_format_specifier s = .ok (dfsOf s) := by
  unfold parse_digit_format_specifier dfsOf
  rw [pyIntOfString_digits h]
  show (if s.length > 1 then _ else _) = _
  split <;> rfl

@[simp] theorem parseLoop_nil (body : List Str) (parsed : Str) (seqv : Option Str)
    (offset : Int) : parseLoop body [] parsed seqv offset = .ok (parsed, seqv) := rfl

theorem parseLoop_cons (body : List Str) (i : Nat) (rest : List Nat) (parsed : Str)
    (seqv : Option Str) (offset : Int) :
    parseLoop body (i :: rest) parsed seqv offset =
      (match parse_digit_format_specifier (body.getD i []) with
       | .error e => .error e
       | .ok parsedSeq =>
         parseLoop body rest
           (pyTake parsed (((body.take i).flatten.length : Int) - offset) ++ parsedSeq ++
             pyDropFrom parsed ((((body.take i).flatten.length : Int) - offset) +
               ((body.getD i []).length : Int)))
           (some (body.getD i []))
           (offset + (((body.getD i []).length : Int) - (parsedSeq.length : Int)))) := rfl

theorem parseLoop_ok (body : List Str) :
    ∀ (bsi : List Nat) (parsed : Str) (seqv : Option Str) (offset : Int),
      (∀ i ∈ bsi, pyIsDigit (body.getD i []) = true) →
      ∃ parsed', parseLoop body bsi parsed seqv offset =
        .ok (parsed', match bsi.getLast? with
                      | some i => some (body.getD i [])
                      | none => seqv) := by
  intro bsi
  induction bsi with
  | nil =>
    intro parsed seqv offset _
    exact ⟨parsed, rfl⟩
  | cons i rest ih =>
    intro parsed seqv offset h
    rcases ih (pyTake parsed (((body.take i).flatten.length : Int) - offset) ++ dfsOf (body.getD i []) ++
        pyDropFrom parsed ((((body.take i).flatten.length : Int) - offset) +
          ((body.getD i []).length : Int)))
        (some (body.getD i []))
        (offset + (((body.getD i []).length : Int) - ((dfsOf (body.getD i [])).length : Int)))
        (fun x hx => h x (by simp [hx])) with ⟨p', hp'⟩
    refine ⟨p', ?_⟩
    rw [parseLoop_cons]
    simp only [parse_dfs_digits (h i (by simp))]
    rw [hp']
    rcases rest with _ | ⟨x, xs⟩
    · rfl
    · rw [List.getLast?_cons_cons, List.getLast?_eq_getLast (x :: xs) (by simp)]

/-- C2: during inference (strict or sampled scanning alike), a body
    component is a sequence candidate iff its accumulated Levenshtein
    distance against the positionally corresponding substrings of the
    scanned sibling roots is positive and it is all digits;
    `_predict_sequence` raises iff there are no candidates (or more than
    `len(body)`, which the index list cannot exceed); and when several
    candidates exist, `_parse_filename_pattern` raises in strict mode but
    succeeds in non-strict mode. -/
theorem C2_candidates (root ext : Str) (files : List Str) (isF : Str → Bool) (st : Bool)
    (bsi : List Nat)
    (hok : predict_sequence (get_body (split_at_digit root)) false files isF (root ++ ext) =
      .ok bsi)
    (hmulti : 1 < bsi.length) :
    (∀ (body : List Str) (j : Nat),
      j ∈ predictAux st (maxCountFor files.length) isF (root ++ ext) files body 0 0 ↔
        ∃ h : j < body.length, pyIsDigit (body.get ⟨j, h⟩) = true ∧
          0 < segScoreLoop st (maxCountFor files.length) isF (root ++ ext)
              ((body.take j).flatten.length) (body.get ⟨j, h⟩) files 0 0) ∧
    (∀ (body : List Str),
      ((predict_sequence body st files isF (root ++ ext)).isOk = false ↔
        (predictAux st (maxCountFor files.length) isF (root ++ ext) files body 0 0 = [] ∨
         body.length <
           (predictAux st (maxCountFor files.length) isF (root ++ ext) files body 0 0).length))) ∧
    ((parse_filename_pattern root ext true files isF (root ++ ext)).isOk = false ∧
     (parse_filename_pattern root ext false files isF (root ++ ext)).isOk = true) := by
  refine ⟨?_, ?_, ?_⟩
  · intro body j
    rw [predictAux_mem]
    constructor
    · intro hex
      rcases hex with ⟨k, hk1, hk2, hk3, hk4⟩
      have hjk : j = k := by omega
      subst hjk
      refine ⟨hk1, ?_, ?_⟩
      · rw [show body.get ⟨j, hk1⟩ = body.getD j [] from (List.getD_eq_get _ _ hk1).symm]
        exact hk3
      · rw [show body.get ⟨j, hk1⟩ = body.getD j [] from (List.getD_eq_get _ _ hk1).symm]
        simpa using hk4
    · intro hex
      rcases hex with ⟨h, h2, h3⟩
      refine ⟨j, h, by omega, ?_, ?_⟩
      · rw [List.getD_eq_get _ _ h]
        exact h2
      · rw [List.getD_eq_get _ _ h]
        simpa using h3
  · intro body
    exact predict_sequence_error_iff body st files isF (root ++ ext)
  · have hbsi := predict_sequence_ok_inv hok
    have hdig : ∀ i ∈ bsi, pyIsDigit ((get_body (split_at_digit root)).getD i []) = true := by
      intro i hi
      rw [hbsi] at hi
      rcases (predictAux_mem false (maxCountFor files.length) isF (root ++ ext) files
        (get_body (split_at_digit root)) 0 0 i).mp hi with ⟨k, hk1, hk2, hk3, _⟩
      have : i = k := by omega
      subst this
      exact hk3
    have hne : bsi ≠ [] := by
      intro he
      rw [he] at hmulti
      simp at hmulti
    rcases parseLoop_ok (get_body (split_at_digit root)) bsi root none 0 hdig with ⟨p', hp'⟩
    have hlast : bsi.getLast? = some (bsi.getLast hne) := List.getLast?_eq_getLast bsi hne
    have hlastdig : pyIsDigit ((get_body (split_at_digit root)).getD (bsi.getLast hne) []) =
        true := hdig _ (List.getLast_mem hne)
    constructor
    · show (parse_filename_pattern root ext true files isF (root ++ ext)).isOk = false
      simp only [parse_filename_pattern, hok, hp', hlast]
      rw [if_pos (by simp [hmulti])]
      rfl
    · show (parse_filename_pattern root ext false files isF (root ++ ext)).isOk = true
      simp only [parse_filename_pattern, hok, hp', hlast]
      rw [if_neg (by simp)]
      rw [pyIntOfString_digits hlastdig]
      rfl

/-- C2 witness: root `1_2` among files `1_2.png, 3_4.png` has two
    candidate components (`1` and `2`); prediction succeeds with both, and
    pattern parsing raises in strict mode only. -/
theorem C2_witness :
    (parse_filename_pattern (str "1_2") (str ".png") true [str "1_2.png", str "3_4.png"]
      (fun _ => true) (str "1_2" ++ str ".png")).isOk = false ∧
    (parse_filename_pattern (str "1_2") (str ".png") false [str "1_2.png", str "3_4.png"]
      (fun _ => true) (str "1_2" ++ str ".png")).isOk = true := by
  have h := C2_candidates (str "1_2") (str ".png") [str "1_2.png", str "3_4.png"]
    (fun _ => true) false [0, 2] (by rfl) (by decide)
  exact h.2.2

/-! # C9: `rename_sequence_files` with zero staged files -/

@[simp] theorem stageLoop_nil (inputDir tmpDir : Str) (reMatch : Str → Option Str) (b : Bool)
    (outRoot : Str) (dfsIdx : Int) (dfsLen width : Nat) (cmp : Bool) (fs : FS) (acc : List Str)
    (count : Int) :
    stageLoop inputDir tmpDir reMatch b outRoot dfsIdx dfsLen width cmp [] fs acc count =
      (fs, acc, count) := rfl

theorem stageLoop_skip (inputDir tmpDir : Str) (reMatch : Str → Option Str) (b : Bool)
    (outRoot : Str) (dfsIdx : Int) (dfsLen width : Nat) (cmp : Bool) :
    ∀ (l : List Str) (fs : FS) (acc : List Str) (count : Int),
      (∀ f ∈ l, fs.files.contains (pathJoin inputDir f) = false ∨ reMatch f = none) →
      stageLoop inputDir tmpDir reMatch b outRoot dfsIdx dfsLen width cmp l fs acc count =
        (fs, acc, count) := by
  intro l
  induction l with
  | nil => intro fs acc count _; rfl
  | cons f rest ih =>
    intro fs acc count h
    show (if fs.files.contains (pathJoin inputDir f) = false then _ else _) = _
    rcases h f (by simp) with hc | hm
    · rw [if_pos hc]
      exact ih fs acc count (fun x hx => h x (by simp [hx]))
    · by_cases hc : fs.files.contains (pathJoin inputDir f) = false
      · rw [if_pos hc]
        exact ih fs acc count (fun x hx => h x (by simp [hx]))
      · rw [if_neg hc]
        simp only [hm]
        exact ih fs acc count (fun x hx => h x (by simp [hx]))

/-- C9: when the staging loop stages no file (every sequence file either
    does not exist or fails the pattern match), `rename_sequence_files`
    fails with the rename error and removes the freshly created staging
    directory, leaving the filesystem exactly as before. -/
theorem C9_rename_zero_staged (fs0 : FS) (inputDir inputFname outputDir outRoot : Str)
    (st : Int) (seqFiles : List Str) (dfsFname : Str) (dfsIdx : Int)
    (reMatch : Str → Option Str) (cmp : Bool) (tmpStamp : Str) (startNum : Int)
    (hst : 0 ≤ st)
    (htmp : fs0.dirs.contains (pathJoin inputDir (str "tmp" ++ tmpStamp)) = false)
    (hnone : ∀ f ∈ seqFiles,
      fs0.files.contains (pathJoin inputDir f) = false ∨ reMatch f = none) :
    rename_sequence_files fs0 inputDir inputFname outputDir outRoot (some st) seqFiles
      dfsFname dfsIdx reMatch cmp tmpStamp startNum =
      (fs0, .error (.renameFailed (str "Unable to move and rename any files"))) := by
  show (if st < 0 then _ else _) = _
  rw [if_neg (by omega)]
  rw [if_neg (by rw [htmp]; simp)]
  simp only [stageLoop_skip inputDir (pathJoin inputDir (str "tmp" ++ tmpStamp)) reMatch
    (decide (0 ≤ st)) outRoot dfsIdx dfsFname.length
    (intToPyStr ((seqFiles.length : Int) + startNum)).length cmp seqFiles
    { files := fs0.files, dirs := pathJoin inputDir (str "tmp" ++ tmpStamp) :: fs0.dirs }
    [] startNum (by intro f hf; exact hnone f hf)]
  rw [if_pos (by omega)]
  rw [List.erase_cons_head]

/-- C9 witness: one candidate file that never matches the pattern. -/
theorem C9_witness :
    rename_sequence_files ⟨[str "/in/a.png"], []⟩ (str "/in") (str "a.png") (str "/out")
      (str "a") (some 0) [str "b.png"] (str "a%d.png") 1 (fun _ => none) false
      (str "210306120000") 0 =
      (⟨[str "/in/a.png"], []⟩,
        .error (.renameFailed (str "Unable to move and rename any files"))) := by
  apply C9_rename_zero_staged
  · decide
  · rfl
  · intro f _
    exact Or.inr rfl

/-! # C10: the derived regex matches the sample filename

Supporting lemmas about the canonical specifier inside a percent-free
context: `re.findall`, `str.find`, `str.replace`, and the `in` test. -/

/-- The regex metacharacters (claim hypothesis: none occur in the root). -/
def regexMeta (c : Char) : Bool :=
  c = '.' || c = '^' || c = '$' || c = '*' || c = '+' || c = '?' || c = '\x7b' || c = '\x7d' ||
  c = '[' || c = ']' || c = '\\' || c = '|' || c = '(' || c = ')'

theorem dfsOf_shape (seg : Str) : ∃ ds, dfsOf seg = '%' :: ds := by
  unfold dfsOf
  split
  · exact ⟨_, rfl⟩
  · exact ⟨_, rfl⟩

theorem takeWhile_digits_append (E t : Str) (h : ∀ c ∈ E, c.isDigit = true) :
    (E ++ 'd' :: t).takeWhile Char.isDigit = E := by
  induction E with
  | nil =>
    show (('d' :: t).takeWhile Char.isDigit) = []
    rw [List.takeWhile_cons]
    rw [if_neg (by decide)]
  | cons e E' ih =>
    have he := h e (by simp)
    rw [List.cons_append, List.takeWhile_cons, if_pos he,
      ih (fun x hx => h x (by simp [hx]))]

theorem pySpecAt_canonical (E t : Str) (h : ∀ c ∈ E, c.isDigit = true) :
    pySpecAt (E ++ 'd' :: t) = some (E, t) := by
  unfold pySpecAt
  rw [takeWhile_digits_append E t h, List.drop_left]
  rw [if_pos (by rfl)]
  rfl

theorem dfsMatchAt_cons_ne {c : Char} (r : Str) (hc : c ≠ '%') : dfsMatchAt (c :: r) = none := by
  unfold dfsMatchAt
  rw [if_neg (by simpa using hc)]

theorem dfsMatchAt_dfsOf (seg t : Str) (h : pyIsDigit seg = true) :
    dfsMatchAt (dfsOf seg ++ t) = some (dfsOf seg, t) := by
  unfold dfsOf
  split <;> rename_i hlen
  · have hassoc : ('%' :: '0' :: (natToDigits seg.length ++ ['d'])) ++ t =
        '%' :: (('0' :: natToDigits seg.length) ++ 'd' :: t) := by
      simp
    rw [hassoc]
    unfold dfsMatchAt
    rw [if_pos (by rfl)]
    simp only [List.drop_one, List.tail_cons]
    rw [pySpecAt_canonical ('0' :: natToDigits seg.length) t
      (by
        intro x hx
        rcases List.mem_cons.mp hx with rfl | hx2
        · decide
        · exact natToDigits_all_digit _ x hx2)]
    simp
  · rfl

theorem findAllDfsAux_no_pct : ∀ (fuel : Nat) (s : Str), '%' ∉ s →
    findAllDfsAux fuel s = [] := by
  intro fuel
  induction fuel with
  | zero => intro s _; rcases s with _ | ⟨c, r⟩ <;> rfl
  | succ f ih =>
    intro s h
    rcases s with _ | ⟨c, r⟩
    · rfl
    · show (match dfsMatchAt (c :: r) with
        | some (spec, rest) => spec :: findAllDfsAux f rest
        | none => findAllDfsAux f r) = []
      rw [dfsMatchAt_cons_ne r (fun e => h (e ▸ List.mem_cons_self c r))]
      exact ih r (fun hm => h (List.mem_cons_of_mem _ hm))

theorem findAllDfsAux_single : ∀ (fuel : Nat) (a seg t : Str),
    a.length + (dfsOf seg ++ t).length < fuel → pyIsDigit seg = true → '%' ∉ a → '%' ∉ t →
    findAllDfsAux fuel (a ++ (dfsOf seg ++ t)) = [dfsOf seg] := by
  intro fuel
  induction fuel with
  | zero => intro a seg t h _ _ _; omega
  | succ f ih =>
    intro a seg t hlen hseg ha ht
    rcases a with _ | ⟨c, a'⟩
    · rw [List.nil_append]
      rcases dfsOf_shape seg with ⟨ds, hds⟩
      rw [hds, List.cons_append]
      show (match dfsMatchAt ('%' :: (ds ++ t)) with
        | some (spec, rest) => spec :: findAllDfsAux f rest
        | none => findAllDfsAux f (ds ++ t)) = _
      have hm := dfsMatchAt_dfsOf seg t hseg
      rw [hds, List.cons_append] at hm
      simp only [hm]
      rw [findAllDfsAux_no_pct f t ht]
    · rw [List.cons_append]
      have hc : c ≠ '%' := fun e => ha (e ▸ List.mem_cons_self c a')
      show (match dfsMatchAt (c :: (a' ++ (dfsOf seg ++ t))) with
        | some (spec, rest) => spec :: findAllDfsAux f rest
        | none => findAllDfsAux f (a' ++ (dfsOf seg ++ t))) = _
      rw [dfsMatchAt_cons_ne _ hc]
      refine ih a' seg t ?_ hseg (fun hm => ha (List.mem_cons_of_mem _ hm)) ht
      simp only [List.length_cons] at hlen
      omega

theorem findAllDfs_single (a seg t : Str) (hseg : pyIsDigit seg = true)
    (ha : '%' ∉ a) (ht : '%' ∉ t) :
    findAllDfs (a ++ (dfsOf seg ++ t)) = [dfsOf seg] := by
  unfold findAllDfs
  refine findAllDfsAux_single _ a seg t ?_ hseg ha ht
  simp

theorem isPrefixOf_cons_ne {x y : Char} {xs ys : Str} (h : x ≠ y) :
    (x :: xs).isPrefixOf (y :: ys) = false := by
  show (x == y && xs.isPrefixOf ys) = false
  have hb : (x == y) = false := by simpa using h
  rw [hb]
  rfl

theorem isPrefixOf_append_self (l t : Str) : l.isPrefixOf (l ++ t) = true := by
  rw [List.isPrefixOf_iff_prefix]
  exact List.prefix_append l t

theorem pyFindAux_append (ds : Str) :
    ∀ (a t : Str) (i : Nat), '%' ∉ a →
      pyFindAux ('%' :: ds) (a ++ (('%' :: ds) ++ t)) i = ((i + a.length : Nat) : Int) := by
  intro a
  induction a with
  | nil =>
    intro t i _
    rw [List.nil_append, List.cons_append]
    show (if ('%' :: ds).isPrefixOf ('%' :: (ds ++ t)) = true then ((i : Nat) : Int) else _) = _
    rw [if_pos (show ('%' :: ds).isPrefixOf ('%' :: (ds ++ t)) = true from
      isPrefixOf_append_self ('%' :: ds) t)]
    simp
  | cons c a' ih =>
    intro t i ha
    have hc : '%' ≠ c := fun e => ha (e ▸ List.mem_cons_self c a')
    rw [List.cons_append]
    show (if ('%' :: ds).isPrefixOf (c :: (a' ++ (('%' :: ds) ++ t))) = true
      then ((i : Nat) : Int) else pyFindAux ('%' :: ds) (a' ++ (('%' :: ds) ++ t)) (i + 1)) = _
    rw [if_neg (by rw [isPrefixOf_cons_ne hc]; simp)]
    rw [ih t (i + 1) (fun hm => ha (List.mem_cons_of_mem _ hm))]
    simp only [List.length_cons]
    congr 1
    omega

theorem pyFind_append (a sub t : Str) (hsub : ∃ ds, sub = '%' :: ds) (ha : '%' ∉ a) :
    pyFind (a ++ (sub ++ t)) sub = ((a.length : Nat) : Int) := by
  rcases hsub with ⟨ds, rfl⟩
  unfold pyFind
  rw [pyFindAux_append ds a t 0 ha]
  simp

theorem pyReplaceAux_no_match (ds new : Str) :
    ∀ (fuel : Nat) (t : Str), t.length < fuel → '%' ∉ t →
      pyReplaceAux fuel t ('%' :: ds) new = t := by
  intro fuel
  induction fuel with
  | zero => intro t h _; omega
  | succ f ih =>
    intro t hlen ht
    rcases t with _ | ⟨c, r⟩
    · rfl
    · have hc : '%' ≠ c := fun e => ht (e ▸ List.mem_cons_self c r)
      show (if ('%' :: ds) ≠ [] ∧ ('%' :: ds).isPrefixOf (c :: r) = true then _ else
        c :: pyReplaceAux f r ('%' :: ds) new) = _
      rw [if_neg (by
        intro hcon
        rw [isPrefixOf_cons_ne hc] at hcon
        exact absurd hcon.2 (by simp))]
      rw [ih r (by simp at hlen; omega) (fun hm => ht (List.mem_cons_of_mem _ hm))]

theorem pyReplaceAux_single (ds new : Str) :
    ∀ (fuel : Nat) (a t : Str), a.length + (ds.length + 1) + t.length < fuel →
      '%' ∉ a → '%' ∉ t →
      pyReplaceAux fuel (a ++ (('%' :: ds) ++ t)) ('%' :: ds) new = a ++ (new ++ t) := by
  intro fuel
  induction fuel with
  | zero => intro a t h _ _; omega
  | succ f ih =>
    intro a t hlen ha ht
    rcases a with _ | ⟨c, a'⟩
    · rw [List.nil_append, List.cons_append]
      show (if ('%' :: ds) ≠ [] ∧ ('%' :: ds).isPrefixOf ('%' :: (ds ++ t)) = true then
        new ++ pyReplaceAux f (('%' :: (ds ++ t)).drop ('%' :: ds).length) ('%' :: ds) new
        else _) = _
      rw [if_pos ⟨by simp, by
        rw [show '%' :: (ds ++ t) = ('%' :: ds) ++ t from rfl]
        exact isPrefixOf_append_self _ _⟩]
      rw [show ('%' :: (ds ++ t)).drop ('%' :: ds).length = t from by
        rw [show '%' :: (ds ++ t) = ('%' :: ds) ++ t from rfl]
        exact List.drop_left _ _]
      rw [pyReplaceAux_no_match ds new f t (by simp at hlen; omega) ht]
      simp
    · have hc : '%' ≠ c := fun e => ha (e ▸ List.mem_cons_self c a')
      rw [List.cons_append]
      show (if ('%' :: ds) ≠ [] ∧ ('%' :: ds).isPrefixOf
          (c :: (a' ++ (('%' :: ds) ++ t))) = true then _ else
        c :: pyReplaceAux f (a' ++ (('%' :: ds) ++ t)) ('%' :: ds) new) = _
      rw [if_neg (by
        intro hcon
        rw [isPrefixOf_cons_ne hc] at hcon
        exact absurd hcon.2 (by simp))]
      rw [ih a' t (by simp at hlen; omega) (fun hm => ha (List.mem_cons_of_mem _ hm)) ht]
      rfl

theorem pyReplace_single (a sub new t : Str) (hsub : ∃ ds, sub = '%' :: ds)
    (ha : '%' ∉ a) (ht : '%' ∉ t) :
    pyReplace (a ++ (sub ++ t)) sub new = a ++ (new ++ t) := by
  rcases hsub with ⟨ds, rfl⟩
  unfold pyReplace
  refine pyReplaceAux_single ds new _ a t ?_ ha ht
  simp
  omega

theorem pyContains_pct_false (s ds : Str) (hs : '%' ∉ s) :
    pyContains s ('%' :: ds) = false := by
  induction s with
  | nil => rfl
  | cons c r ih =>
    have hc : '%' ≠ c := fun e => hs (e ▸ List.mem_cons_self c r)
    show (('%' :: ds).isPrefixOf (c :: r) || pyContains r ('%' :: ds)) = false
    rw [isPrefixOf_cons_ne hc, ih (fun hm => hs (List.mem_cons_of_mem _ hm))]
    rfl

theorem hasDfs_append_right (a b : Str) (h : has_digit_format_specifier b = true) :
    has_digit_format_specifier (a ++ b) = true := by
  induction a with
  | nil => simpa
  | cons c a' ih =>
    show (dfsStartsAt (c :: (a' ++ b)) || has_digit_format_specifier (a' ++ b)) = true
    rw [ih]
    simp

theorem hasDfs_dfsOf (seg t : Str) (h : pyIsDigit seg = true) :
    has_digit_format_specifier (dfsOf seg ++ t) = true := by
  unfold dfsOf
  split
  · have hassoc : ('%' :: '0' :: (natToDigits seg.length ++ ['d'])) ++ t =
        '%' :: (('0' :: natToDigits seg.length) ++ 'd' :: t) := by simp
    rw [hassoc]
    show (dfsStartsAt ('%' :: (('0' :: natToDigits seg.length) ++ 'd' :: t)) || _) = true
    have h1 : dfsStartsAt ('%' :: (('0' :: natToDigits seg.length) ++ 'd' :: t)) =
        dfsAfterPercent (('0' :: natToDigits seg.length) ++ 'd' :: t) := rfl
    rw [h1, dfsAfterPercent_digits t
      (by
        intro x hx
        rcases List.mem_cons.mp hx with rfl | hx2
        · decide
        · exact natToDigits_all_digit _ x hx2)]
    rfl
  · rfl

theorem get_body_flatten (root : Str) (h : root ≠ []) :
    (get_body (split_at_digit root)).flatten = root := by
  rw [get_body_split root h]
  rcases root with _ | ⟨c, rest⟩
  · exact absurd rfl h
  · show (splitLoop rest c.isDigit [c]).flatten = _
    rw [splitLoop_flatten]
    rfl

theorem list_decompose_at {α : Type} (l : List α) (k : Nat) (hk : k < l.length) (d : α) :
    l = l.take k ++ l.getD k d :: l.drop (k + 1) := by
  conv_lhs => rw [← List.take_append_drop k l]
  congr 1
  rw [List.drop_eq_getElem_cons hk, List.getD_eq_getElem l d hk]

/-- The root splits around its `k`-th body component. -/
theorem body_decompose (root : Str) (h : root ≠ []) (k : Nat)
    (hk : k < (get_body (split_at_digit root)).length) :
    root = ((get_body (split_at_digit root)).take k).flatten ++
      ((get_body (split_at_digit root)).getD k [] ++
        ((get_body (split_at_digit root)).drop (k + 1)).flatten) := by
  conv_lhs => rw [← get_body_flatten root h,
    list_decompose_at (get_body (split_at_digit root)) k hk []]
  rw [List.flatten_append, List.flatten_cons]

/-- Python slices of a decomposed string. -/
theorem pyTake_decomp (P Q : Str) : pyTake (P ++ Q) (((P.length : Nat) : Int) - 0) = P := by
  unfold pyTake pySliceIdx
  rw [sub_zero, if_pos (Int.ofNat_nonneg _), Int.toNat_ofNat]
  rw [show min P.length (P ++ Q).length = P.length from by
    rw [List.length_append]; omega]
  exact List.take_left _ _

theorem pyDrop_decomp (P G S : Str) :
    pyDropFrom (P ++ (G ++ S)) ((((P.length : Nat) : Int) - 0) + ((G.length : Nat) : Int)) =
      S := by
  unfold pyDropFrom pySliceIdx
  rw [sub_zero]
  rw [show (((P.length : Nat) : Int) + ((G.length : Nat) : Int)) =
      ((P.length + G.length : Nat) : Int) from by push_cast; ring]
  rw [if_pos (Int.ofNat_nonneg _), Int.toNat_ofNat]
  rw [show min (P.length + G.length) (P ++ (G ++ S)).length = P.length + G.length from by
    rw [List.length_append, List.length_append]; omega]
  rw [show P ++ (G ++ S) = (P ++ G) ++ S from by rw [List.append_assoc]]
  rw [show P.length + G.length = (P ++ G).length from by rw [List.length_append]]
  exact List.drop_left _ _

/-- With a unique predicted component `k`, strict pattern parsing succeeds
    and produces the root with that component replaced by its specifier,
    plus the component's integer value. -/
theorem parse_single_result (root ext : Str) (files : List Str) (isF : Str → Bool) (k : Nat)
    (hroot : root ≠ [])
    (hpred : predict_sequence (get_body (split_at_digit root)) false files isF (root ++ ext) =
      .ok [k]) :
    k < (get_body (split_at_digit root)).length ∧
    pyIsDigit ((get_body (split_at_digit root)).getD k []) = true ∧
    parse_filename_pattern root ext true files isF (root ++ ext) =
      .ok ((((get_body (split_at_digit root)).take k).flatten ++
          (dfsOf ((get_body (split_at_digit root)).getD k []) ++
            ((get_body (split_at_digit root)).drop (k + 1)).flatten)) ++ ext,
        ((natOfDigits ((get_body (split_at_digit root)).getD k []) : Nat) : Int)) := by
  have hinv := predict_sequence_ok_inv hpred
  have hkmem : k ∈ predictAux false (maxCountFor files.length) isF (root ++ ext) files
      (get_body (split_at_digit root)) 0 0 := by
    rw [← hinv]
    simp
  rcases (predictAux_mem false _ isF (root ++ ext) files
      (get_body (split_at_digit root)) 0 0 k).mp hkmem with ⟨k', h1, h2, h3, _⟩
  have hkk : k = k' := by omega
  subst hkk
  refine ⟨h1, h3, ?_⟩
  have heq := body_decompose root hroot k h1
  have htake := pyTake_decomp (((get_body (split_at_digit root)).take k).flatten)
    ((get_body (split_at_digit root)).getD k [] ++
      ((get_body (split_at_digit root)).drop (k + 1)).flatten)
  rw [← heq] at htake
  have hdrop := pyDrop_decomp (((get_body (split_at_digit root)).take k).flatten)
    ((get_body (split_at_digit root)).getD k [])
    (((get_body (split_at_digit root)).drop (k + 1)).flatten)
  rw [← heq] at hdrop
  simp only [parse_filename_pattern, hpred]
  rw [parseLoop_cons]
  simp only [parse_dfs_digits h3]
  rw [parseLoop_nil, htake, hdrop]
  simp [pyIntOfString_digits h3]
  rw [pyIntOfString_digits (show pyIsDigit ((get_body (split_at_digit root))[k]?.getD []) = true
    from by rw [← List.getD_eq_getElem?_getD]; exact h3)]

/-- The regex fragment generated for a component's specifier. -/
def fragOf (seg : Str) : Str :=
  if seg.length > 1 then str "\\d\x7b" ++ natToDigits seg.length ++ str "\x7d"
  else str "\\d+"

theorem to_re_pattern_dfsOf {seg : Str} (h : pyIsDigit seg = true) :
    to_re_pattern (dfsOf seg) true = .ok (fragOf seg) := by
  unfold dfsOf fragOf
  split
  · rw [to_re_pattern_canonical true (natToDigits seg.length) (natToDigits_ne_nil _)
      (natToDigits_all_digit _)]
    rw [natOfDigits_natToDigits]
    rfl
  · unfold to_re_pattern
    rw [if_neg (by decide), if_neg (by simp)]

theorem pct_notin_fragOf (seg : Str) : '%' ∉ fragOf seg := by
  unfold fragOf
  split
  · intro hmem
    rcases List.mem_append.mp hmem with h1 | h2
    · rcases List.mem_append.mp h1 with h3 | h4
      · exact absurd h3 (by decide)
      · exact absurd (natToDigits_all_digit _ _ h4) (by decide)
    · exact absurd h2 (by decide)
  · intro hmem
    exact absurd hmem (by decide)

/-- `get_regex_filename` on a pattern with a single canonical specifier in
    a percent-free context: the specifier is grouped, translated to its
    regex fragment (strict), and the pattern is anchored. -/
theorem get_regex_single (P seg T : Str) (st : Int)
    (hseg : pyIsDigit seg = true) (hP : '%' ∉ P) (hT : '%' ∉ T) (hst : 0 ≤ st) :
    get_regex_filename (P ++ (dfsOf seg ++ T)) st =
      .ok ('^' :: ((P ++ (('(' :: (fragOf seg ++ [')'])) ++ T)) ++ ['$'])) := by
  have hfind := findAllDfs_single P seg T hseg hP hT
  have hex : extract_digit_format_specifiers (P ++ (dfsOf seg ++ T)) =
      [(pyFind (P ++ (dfsOf seg ++ T)) (dfsOf seg), dfsOf seg)] := by
    unfold extract_digit_format_specifiers
    rw [if_neg (by rw [hasDfs_append_right _ _ (hasDfs_dfsOf seg T hseg)]; simp)]
    rw [hfind]
    rfl
  unfold get_regex_filename
  rw [hex]
  rw [if_neg (by simp; omega)]
  simp only [to_re_pattern_dfsOf hseg]
  rw [pyReplace_single P (dfsOf seg) ('(' :: (fragOf seg ++ [')'])) T (dfsOf_shape seg) hP hT]
  have hnopct : '%' ∉ '^' :: ((P ++ (('(' :: (fragOf seg ++ [')'])) ++ T)) ++ ['$']) := by
    intro hmem
    rcases List.mem_cons.mp hmem with he | hmem2
    · exact absurd he (by decide)
    rcases List.mem_append.mp hmem2 with h1 | h2
    · rcases List.mem_append.mp h1 with h3 | h4
      · exact hP h3
      · rcases List.mem_cons.mp h4 with h5 | h6
        · exact absurd h5 (by decide)
        rcases List.mem_append.mp h6 with h7 | h8
        · rcases List.mem_append.mp h7 with h9 | h10
          · exact pct_notin_fragOf seg h9
          · exact absurd (List.mem_singleton.mp h10) (by decide)
        · exact hT h8
    · exact absurd (List.mem_singleton.mp h2) (by decide)
  rw [show pyContains ('^' :: ((P ++ (('(' :: (fragOf seg ++ [')'])) ++ T)) ++ ['$']))
      (str "%%") = false from pyContains_pct_false _ ['%'] hnopct]
  rw [if_neg (by simp)]

theorem splitAtChar_append (c : Char) (a b : Str) (h : c ∉ a) :
    splitAtChar c (a ++ c :: b) = some (a, b) := by
  induction a with
  | nil =>
    show splitAtChar c (c :: b) = some ([], b)
    unfold splitAtChar
    rw [if_pos rfl]
  | cons x xs ih =>
    have hx : x ≠ c := fun he => h (he ▸ List.mem_cons_self x xs)
    show splitAtChar c (x :: (xs ++ c :: b)) = some (x :: xs, b)
    unfold splitAtChar
    rw [if_neg hx, ih (fun hm => h (List.mem_cons_of_mem x hm))]
    rfl

theorem rparen_notin_fragOf (seg : Str) : ')' ∉ fragOf seg := by
  unfold fragOf
  split
  · intro hmem
    rcases List.mem_append.mp hmem with h1 | h2
    · rcases List.mem_append.mp h1 with h3 | h4
      · exact absurd h3 (by decide)
      · exact absurd (natToDigits_all_digit _ _ h4) (by decide)
    · exact absurd h2 (by decide)
  · intro hmem
    exact absurd hmem (by decide)

theorem parseFrag_fragOf (seg : Str) (hseg : pyIsDigit seg = true) :
    ∃ fr, parseFrag (fragOf seg) = some fr ∧ fragOK fr seg = true := by
  unfold fragOf
  split
  case isTrue hlen =>
    refine ⟨.exact seg.length, ?_, by simp [fragOK, hseg]⟩
    have hfrm : str "\x5cd\x7b" ++ natToDigits seg.length ++ str "\x7d" =
        '\x5c' :: 'd' :: '\x7b' :: (natToDigits seg.length ++ ['\x7d']) := by
      simp [str]
    rw [hfrm]
    unfold parseFrag
    rw [if_pos (by rfl)]
    show (if '\x7b' :: (natToDigits seg.length ++ ['\x7d']) = ['+'] then _
      else if ('\x7b' :: (natToDigits seg.length ++ ['\x7d'])).headD ' ' = '\x7b' then _
      else none) = _
    rw [if_neg (by simp), if_pos (by rfl)]
    show (if (natToDigits seg.length ++ ['\x7d']).getLast? = some '\x7d' then _ else none) = _
    rw [List.getLast?_concat, if_pos rfl]
    show (if (natToDigits seg.length ++ ['\x7d']).dropLast.take 2 = ['1', ','] then _
      else if pyIsDigit (natToDigits seg.length ++ ['\x7d']).dropLast then _ else none) = _
    rw [List.dropLast_concat]
    have hnotc : ¬ (natToDigits seg.length).take 2 = ['1', ','] := by
      intro hc
      have hmem : ',' ∈ (natToDigits seg.length).take 2 := by rw [hc]; decide
      exact absurd (natToDigits_all_digit _ _ (List.take_subset 2 _ hmem)) (by decide)
    rw [if_neg hnotc,
      if_pos (pyIsDigit_of (natToDigits_ne_nil _) (natToDigits_all_digit _))]
    simp only [List.drop_succ_cons, List.drop_zero, List.dropLast_concat,
      natOfDigits_natToDigits]
  case isFalse hlen =>
    exact ⟨.plus, rfl, by simp [fragOK, hseg]⟩

theorem parseSeqPattern_single (P seg T : Str) (fr : DFrag)
    (hP : '(' ∉ P) (hfr : parseFrag (fragOf seg) = some fr) :
    parseSeqPattern ('^' :: ((P ++ (('(' :: (fragOf seg ++ [')'])) ++ T)) ++ ['$'])) =
      some (P, fr, T) := by
  have hsplit1 : splitAtChar '(' (P ++ (('(' :: (fragOf seg ++ [')'])) ++ T)) =
      some (P, (fragOf seg ++ [')']) ++ T) := by
    rw [List.cons_append]
    exact splitAtChar_append '(' P ((fragOf seg ++ [')']) ++ T) hP
  have hsplit2 : splitAtChar ')' ((fragOf seg ++ [')']) ++ T) = some (fragOf seg, T) := by
    rw [List.append_assoc, List.singleton_append]
    exact splitAtChar_append ')' (fragOf seg) T (rparen_notin_fragOf seg)
  unfold parseSeqPattern
  rw [if_pos (by rfl)]
  show (if ((P ++ (('(' :: (fragOf seg ++ [')'])) ++ T)) ++ ['$']).getLast? = some '$' then _
    else none) = _
  rw [List.getLast?_concat, if_pos rfl]
  show (match splitAtChar '(' ((P ++ (('(' :: (fragOf seg ++ [')'])) ++ T)) ++ ['$']).dropLast
    with
    | none => none
    | some (pre, afterParen) =>
      match splitAtChar ')' afterParen with
      | none => none
      | some (fragStr, suf) => (parseFrag fragStr).map (fun fr => (pre, fr, suf))) = _
  rw [List.dropLast_concat]
  simp only [hsplit1, hsplit2, hfr, Option.map_some']

theorem reMatch_single (P seg T : Str) (hseg : pyIsDigit seg = true) (hP : '(' ∉ P) :
    reMatchCapture ('^' :: ((P ++ (('(' :: (fragOf seg ++ [')'])) ++ T)) ++ ['$']))
      (P ++ (seg ++ T)) = some seg := by
  obtain ⟨fr, hfr, hok⟩ := parseFrag_fragOf seg hseg
  have hps := parseSeqPattern_single P seg T fr hP hfr
  unfold reMatchCapture
  simp only [hps]
  have hm : (P ++ (seg ++ T)).length - P.length - T.length = seg.length := by
    simp
  have htk : (P ++ (seg ++ T)).take P.length = P := List.take_left P (seg ++ T)
  have hdr0 : (P ++ (seg ++ T)).drop P.length = seg ++ T := List.drop_left P (seg ++ T)
  have hdr : (P ++ (seg ++ T)).drop (P.length + seg.length) = T := by
    rw [show P ++ (seg ++ T) = (P ++ seg) ++ T from (List.append_assoc P seg T).symm,
      show P.length + seg.length = (P ++ seg).length from (List.length_append P seg).symm]
    exact List.drop_left (P ++ seg) T
  rw [if_pos (by simp)]
  simp only [hm, hdr0, List.take_left, htk, hdr, hok]
  simp

theorem gsfLoop_mem (reF : Str) (isfileB : Str → Bool) (sortFiles : Bool)
    (listdir : List Str) (f : Str) (hmem : f ∈ listdir) (hfile : isfileB f = true)
    (hmatch : (reMatchCapture reF f).isSome = true) :
    f ∈ (gsfLoop reF isfileB sortFiles listdir).1 := by
  induction listdir with
  | nil => exact absurd hmem (List.not_mem_nil f)
  | cons x rest ih =>
    show f ∈ (let acc := gsfLoop reF isfileB sortFiles rest;
      if isfileB x = false then acc
      else
        match reMatchCapture reF x with
        | none => acc
        | some g =>
          (x :: acc.1, if sortFiles then ((pyIntOfString g).getD 0) :: acc.2 else acc.2)).1
    rcases List.mem_cons.mp hmem with rfl | hrest
    · rw [if_neg (by rw [hfile]; simp)]
      rcases ho : reMatchCapture reF f with _ | g
      · rw [ho] at hmatch; exact absurd hmatch (by simp)
      · exact List.mem_cons_self f _
    · have hin := ih hrest
      split
      · exact hin
      · rcases hh : reMatchCapture reF x with _ | g
        · simp only [hh]; exact hin
        · simp only [hh]; exact List.mem_cons_of_mem x hin

theorem gsfLoop_cons (reF : Str) (isfileB : Str → Bool) (sortFiles : Bool) (x : Str)
    (rest : List Str) :
    gsfLoop reF isfileB sortFiles (x :: rest) =
      (let acc := gsfLoop reF isfileB sortFiles rest;
       if isfileB x = false then acc
       else
         match reMatchCapture reF x with
         | none => acc
         | some g =>
           (x :: acc.1, if sortFiles then ((pyIntOfString g).getD 0) :: acc.2 else acc.2)) := rfl

theorem gsfLoop_length (reF : Str) (isfileB : Str → Bool) (listdir : List Str) :
    (gsfLoop reF isfileB true listdir).2.length =
      (gsfLoop reF isfileB true listdir).1.length := by
  induction listdir with
  | nil => rfl
  | cons x rest ih =>
    simp only [gsfLoop_cons]
    split
    · exact ih
    · rcases hh : reMatchCapture reF x with _ | g
      · simp only [hh]; exact ih
      · simp [hh, ih]

theorem pyInsertSorted_perm (le : α → α → Bool) (a : α) (l : List α) :
    (pyInsertSorted le a l).Perm (a :: l) := by
  induction l with
  | nil => exact List.Perm.refl _
  | cons x xs ih =>
    show (if le a x then a :: x :: xs else x :: pyInsertSorted le a xs).Perm (a :: x :: xs)
    split
    · exact List.Perm.refl _
    · exact (List.Perm.cons x ih).trans (List.Perm.swap a x xs)

theorem pySort_perm (le : α → α → Bool) (l : List α) : (pySort le l).Perm l := by
  induction l with
  | nil => exact List.Perm.refl _
  | cons x xs ih =>
    show (pyInsertSorted le x (pySort le xs)).Perm (x :: xs)
    exact (pyInsertSorted_perm le x (pySort le xs)).trans (List.Perm.cons x ih)

theorem get_sequence_files_mem (reF : Str) (listdir : List Str) (isfileB : Str → Bool)
    (f : Str) (hmem : f ∈ listdir) (hfile : isfileB f = true)
    (hmatch : (reMatchCapture reF f).isSome = true) :
    f ∈ get_sequence_files reF listdir isfileB true := by
  have hf1 := gsfLoop_mem reF isfileB true listdir f hmem hfile hmatch
  have hlen := gsfLoop_length reF isfileB listdir
  unfold get_sequence_files
  rw [if_pos (by
    simp only [Bool.true_and, decide_eq_true_eq]
    exact List.length_pos.mpr (List.ne_nil_of_mem hf1))]
  have hzip : ((gsfLoop reF isfileB true listdir).2.zip
      (gsfLoop reF isfileB true listdir).1).map Prod.snd =
      (gsfLoop reF isfileB true listdir).1 :=
    List.map_snd_zip _ _ (le_of_eq hlen.symm)
  have hperm := (pySort_perm pyPairLE ((gsfLoop reF isfileB true listdir).2.zip
    (gsfLoop reF isfileB true listdir).1)).map Prod.snd
  rw [hzip] at hperm
  exact hperm.mem_iff.mpr hf1

/-- C10: for a successfully constructed multi-file sequence descriptor whose
    single predicted component yields the pattern (`predict_sequence` returns
    a single index), with a regex-metacharacter-free, percent-free root, a
    percent-free extension, and a nonnegative start number, the anchored
    regex returned by `get_regex_filename` matches the original sample
    filename itself, and consequently the sample filename is among the files
    returned by `get_sequence_files`. -/
theorem C10_regex_matches_sample (root ext : Str) (files listdir : List Str)
    (isF isfileB : Str → Bool) (k : Nat) (st : Int)
    (hroot : root ≠ [])
    (hmeta : ∀ c ∈ root, regexMeta c = false)
    (hpr : '%' ∉ root) (hpe : '%' ∉ ext)
    (hpred : predict_sequence (get_body (split_at_digit root)) false files isF (root ++ ext) =
      .ok [k])
    (hst : 0 ≤ st)
    (hmem : root ++ ext ∈ listdir) (hfile : isfileB (root ++ ext) = true) :
    ∃ dfsF n reF,
      parse_filename_pattern root ext true files isF (root ++ ext) = .ok (dfsF, n) ∧
      get_regex_filename dfsF st = .ok reF ∧
      (reMatchCapture reF (root ++ ext)).isSome = true ∧
      root ++ ext ∈ get_sequence_files reF listdir isfileB true := by
  obtain ⟨hk, hdig, hparse⟩ := parse_single_result root ext files isF k hroot hpred
  have heq := body_decompose root hroot k hk
  set body := get_body (split_at_digit root)
  set P := (body.take k).flatten
  set seg := body.getD k []
  set Tr := (body.drop (k + 1)).flatten
  have hsubP : ∀ c ∈ P, c ∈ root := by
    intro c hc
    rw [heq]
    exact List.mem_append_left _ hc
  have hsubT : ∀ c ∈ Tr, c ∈ root := by
    intro c hc
    rw [heq]
    exact List.mem_append_right _ (List.mem_append_right _ hc)
  have hPpct : '%' ∉ P := fun hc => hpr (hsubP _ hc)
  have hTpct : '%' ∉ (Tr ++ ext) := by
    intro hc
    rcases List.mem_append.mp hc with h1 | h2
    · exact hpr (hsubT _ h1)
    · exact hpe h2
  have hParen : '(' ∉ P := by
    intro hc
    have hm := hmeta '(' (hsubP _ hc)
    simp [regexMeta] at hm
  have hassoc : (P ++ (dfsOf seg ++ Tr)) ++ ext = P ++ (dfsOf seg ++ (Tr ++ ext)) := by
    simp [List.append_assoc]
  have hgr := get_regex_single P seg (Tr ++ ext) st hdig hPpct hTpct hst
  have hsample : root ++ ext = P ++ (seg ++ (Tr ++ ext)) := by
    rw [heq]
    simp [List.append_assoc]
  have hmt := reMatch_single P seg (Tr ++ ext) hdig hParen
  refine ⟨(P ++ (dfsOf seg ++ Tr)) ++ ext, ((natOfDigits seg : Nat) : Int),
    '^' :: ((P ++ (('(' :: (fragOf seg ++ [')'])) ++ (Tr ++ ext))) ++ ['$']),
    hparse, ?_, ?_, ?_⟩
  · rw [hassoc]
    exact hgr
  · rw [hsample, hmt]
    rfl
  · exact get_sequence_files_mem _ listdir isfileB _ hmem hfile (by rw [hsample, hmt]; rfl)

/-- Witness for C10: the sequence `img_1.png`, `img_2.png` with sample
    `img_1.png` and start number 1. -/
theorem C10_witness :
    ∃ dfsF n reF,
      parse_filename_pattern (str "img_1") (str ".png") true
        [str "img_1.png", str "img_2.png"] (fun _ => true)
        (str "img_1" ++ str ".png") = .ok (dfsF, n) ∧
      get_regex_filename dfsF 1 = .ok reF ∧
      (reMatchCapture reF (str "img_1" ++ str ".png")).isSome = true ∧
      str "img_1" ++ str ".png" ∈ get_sequence_files reF
        [str "img_1.png", str "img_2.png"] (fun _ => true) true :=
  C10_regex_matches_sample (str "img_1") (str ".png")
    [str "img_1.png", str "img_2.png"] [str "img_1.png", str "img_2.png"]
    (fun _ => true) (fun _ => true) 1 1
    (by decide) (by decide) (by decide) (by decide) (by rfl) (by decide)
    (by decide) rfl

end Tapeworm
